import Mathlib

set_option maxRecDepth 8000

/-!
Shallow embedding of the `ofdm` crate of the dab-ofdm-rust repository
(`src/crates/ofdm/src/{ofdm_demodulator.rs, linear_bucket.rs, circular_bucket.rs,
ofdm_parameters.rs}`), together with theorems settling the frozen claims about it.

Modelling conventions:
* `f32` arithmetic is modelled by exact rationals (`ℚ`).
* `Complex32` is modelled by `Cplx`, a pair of rationals.
* The external FFT library (`rustfft`) and the transcendental operations
  (`log10`, `atan2`, `sqrt`, the constant `PI`) are abstracted as oracle
  parameters (`Oracles`); nothing proved here depends on their values.
* Rust panics (failed `assert!`, out-of-bounds indexing/slicing, `%` by zero,
  `chunks_exact(0)`, `.expect` on `None`) are modelled by `Option.none`.
* Rust's `Iterator::max_by` is modelled by `maxByGt`: it folds `cmp::max_by`
  over the iterator, and `cmp::max_by v1 v2 cmp` returns `v2` unless
  `cmp v1 v2 = Greater`; with the source's strict-greater comparator this
  keeps the later element on exact ties.
* Rust's `%` on floats is `x - y * trunc(x / y)` (`rustRem`); `as i8` on a
  float truncates toward zero and saturates to `[-128, 127]` (`i8cast`).
* The `FnMut(&[i8])` subscriber list is modelled by its length
  (`n_bits_out_callbacks`) plus a trace of the slices passed to subscribers
  (`bits_out_invocations`); the source's callback loop invokes every
  subscriber once with `&self.data_out_bits_buffer`, which appends
  `n` copies of that buffer to the trace.
-/

/-- Complex number with rational components, modelling `num::complex::Complex32`. -/
structure Cplx where
  re : ℚ
  im : ℚ
deriving DecidableEq

instance : Inhabited Cplx := ⟨⟨0, 0⟩⟩

/-- Complex multiplication. -/
def Cplx.mul (a b : Cplx) : Cplx :=
  ⟨a.re * b.re - a.im * b.im, a.re * b.im + a.im * b.re⟩

/-- Complex addition. -/
def Cplx.add (a b : Cplx) : Cplx :=
  ⟨a.re + b.re, a.im + b.im⟩

/-- Complex conjugate, modelling `Complex32::conj`. -/
def Cplx.conj (a : Cplx) : Cplx :=
  ⟨a.re, -a.im⟩

/-- `Complex32::l1_norm`, the sum of the absolute values of the components. -/
def Cplx.l1_norm (a : Cplx) : ℚ :=
  |a.re| + |a.im|

/-- Division of a complex number by a real scalar (`vec /= amplitude`).
In `ℚ` division by zero yields `0`; in the source a zero amplitude yields
NaN components which the later `as i8` cast also maps to `0`. -/
def Cplx.divQ (a : Cplx) (q : ℚ) : Cplx :=
  ⟨a.re / q, a.im / q⟩

/-- Truncation of a rational toward zero, as Rust float-to-int casts do. -/
def ratTrunc (q : ℚ) : ℤ :=
  if 0 ≤ q then ⌊q⌋ else ⌈q⌉

/-- Rust's `%` on floats: `x - y * trunc(x / y)` (sign follows the dividend). -/
def rustRem (x y : ℚ) : ℚ :=
  x - y * (ratTrunc (x / y) : ℚ)

/-- Rust's `as i8` on a float: truncate toward zero, saturating to `[-128, 127]`. -/
def i8cast (q : ℚ) : ℤ :=
  max (-128) (min 127 (ratTrunc q))

/-- Rust's `f32::signum`: `+1` for positives and `+0.0`, `-1` for negatives.
`ℚ` has no `-0.0` and no NaN, so only the sign test remains. -/
def rustSignum (x : ℚ) : ℚ :=
  if x < 0 then -1 else 1

/-- Overwrite the slice `l[start .. start + src.length]` with `src`,
modelling `copy_from_slice` into a subslice. -/
def setRange {α : Type} (l : List α) (start : ℕ) (src : List α) : List α :=
  l.take start ++ src ++ l.drop (start + src.length)

/-- `&l[start .. start + len]`: `none` models the Rust panic when the range
exceeds the slice. -/
def sliceSpan {α : Type} (l : List α) (start len : ℕ) : Option (List α) :=
  if start + len ≤ l.length then some ((l.drop start).take len) else none

/-- `slice::chunks_exact(n)`: the `l.length / n` complete chunks of size `n`.
Callers guard `n = 0`, where the Rust method panics. -/
def chunksExact {α : Type} (n : ℕ) (l : List α) : List (List α) :=
  (List.range (l.length / n)).map (fun i => (l.drop (i * n)).take n)

/-- Map with a fallible function, stopping at the first failure; models an
iterator of panicking element computations. -/
def mapMO {α β : Type} (f : α → Option β) : List α → Option (List β)
  | [] => some []
  | a :: l =>
    match f a, mapMO f l with
    | some b, some bs => some (b :: bs)
    | _, _ => none

/-- The inclusive integer range `a..=b` as a list. -/
def intRangeIncl (a b : ℤ) : List ℤ :=
  (List.range (b + 1 - a).toNat).map (fun k : ℕ => a + (k : ℤ))

/-- Rust's `Iterator::max_by` with the source's comparator
`if x > y { Greater } else { Less }`: fold of `cmp::max_by`, which keeps the
accumulator only when the comparator answers `Greater`, hence keeps the later
element on exact ties. -/
def maxByGt {α : Type} (l : List (α × ℚ)) : Option (α × ℚ) :=
  l.foldl
    (fun acc x =>
      match acc with
      | none => some x
      | some a => if a.2 > x.2 then some a else some x)
    none

/-- `LinearBucket<T>` from `linear_bucket.rs`: a fixed-capacity buffer; the
backing `data` vector never changes length, `length` counts the valid items. -/
structure LinearBucket (α : Type) where
  data : List α
  length : ℕ

/-- `LinearBucket::capacity` (`self.data.len()`). -/
def LinearBucket.capacity {α : Type} (b : LinearBucket α) : ℕ :=
  b.data.length

/-- `LinearBucket::reset`. -/
def LinearBucket.reset {α : Type} (b : LinearBucket α) : LinearBucket α :=
  { b with length := 0 }

/-- `LinearBucket::is_full`. -/
def LinearBucket.is_full {α : Type} (b : LinearBucket α) : Bool :=
  b.length == b.capacity

/-- `LinearBucket::iter`: the valid prefix `&self.data[..self.length]`. -/
def LinearBucket.iterList {α : Type} (b : LinearBucket α) : List α :=
  b.data.take b.length

/-- `LinearBucket::consume`: copy from `buf` until the capacity is reached,
returning the new bucket and the number of samples read. -/
def LinearBucket.consume {α : Type} (b : LinearBucket α) (buf : List α) :
    LinearBucket α × ℕ :=
  let remain := b.capacity - b.length
  let total_read := min buf.length remain
  ({ data := setRange b.data b.length (buf.take total_read),
     length := b.length + total_read },
   total_read)

/-- `LinearBucket::consume_from_iterator`: copy from an iterator (modelled by
the list of items it would yield) until the bucket is full or the iterator is
exhausted. In the source `total_read` is initialised to `0` and never
incremented, so the returned count is always `0`. -/
def LinearBucket.consume_from_iterator {α : Type} (b : LinearBucket α)
    (src : List α) : LinearBucket α × ℕ :=
  let m := min src.length (b.capacity - b.length)
  ({ data := setRange b.data b.length (src.take m),
     length := b.length + m },
   0)

/-- `CircularBucket<T>` from `circular_bucket.rs`: fixed-capacity ring buffer;
`index` is the next write position. -/
structure CircularBucket (α : Type) where
  data : List α
  index : ℕ
  length : ℕ

/-- `CircularBucket::capacity`. -/
def CircularBucket.capacity {α : Type} (b : CircularBucket α) : ℕ :=
  b.data.length

/-- `CircularBucket::reset`. -/
def CircularBucket.reset {α : Type} (b : CircularBucket α) : CircularBucket α :=
  { b with index := 0, length := 0 }

/-- One write of `CircularBucket::consume`'s loop body: store at `index` and
advance it modulo the capacity. -/
def CircularBucket.push {α : Type} (b : CircularBucket α) (x : α) :
    CircularBucket α :=
  { b with data := b.data.set b.index x, index := (b.index + 1) % b.capacity }

/-- `CircularBucket::consume`: write `total_read` elements one by one,
wrapping at the capacity; `none` models the Rust panic `% 0` when the
capacity is zero but elements must be written. -/
def CircularBucket.consume {α : Type} (b : CircularBucket α) (buf : List α)
    (consume_all : Bool) : Option (CircularBucket α × ℕ) :=
  let total_read := if consume_all then buf.length else min buf.length (b.capacity - b.length)
  if b.capacity = 0 ∧ total_read ≠ 0 then none
  else
    let b1 := (buf.take total_read).foldl CircularBucket.push b
    some ({ b1 with length := min b.capacity (b.length + total_read) }, total_read)

/-- `CircularBucket::iter`: yields `length` elements starting at the current
write `index`, wrapping at the capacity (exactly as the source's `Iter` does,
which starts at `self.index`). -/
def CircularBucket.iterList {α : Type} [Inhabited α] (b : CircularBucket α) :
    List α :=
  (List.range b.length).map (fun k => b.data.getD ((b.index + k) % b.capacity) default)

/-- Modelled from the spec: the spec (section 4.1) defines ring iteration as
yielding the retained elements "in insertion order starting at the oldest
retained", i.e. starting `length` positions behind the write index. Used only
to compare the source's iteration against the spec's wording; meaningful when
`length ≤ capacity`. -/
def CircularBucket.retainedOldestFirst {α : Type} [Inhabited α]
    (b : CircularBucket α) : List α :=
  (List.range b.length).map
    (fun k => b.data.getD ((b.index + b.capacity - b.length + k) % b.capacity) default)

/-- `calculate_l1_average`: mean L1 norm over a block. -/
def calculate_l1_average (block : List Cplx) : ℚ :=
  (block.map Cplx.l1_norm).sum / (block.length : ℚ)

/-- `calculate_relative_phase`: `x[i] := conj(x[i]) * x[i+1]` for `i < n-1`
and `x[n-1] := 0`. The loop reads only original values (each `x[i+1]` is read
before iteration `i+1` overwrites it). `none` models the panic on an empty
buffer (`0 - 1` underflows in `0..(length-1)`). -/
def calculate_relative_phase (x : List Cplx) : Option (List Cplx) :=
  if x.length = 0 then none
  else
    some ((List.range x.length).map (fun i =>
      if i + 1 < x.length then
        Cplx.mul (Cplx.conj (x.getD i default)) (x.getD (i + 1) default)
      else ⟨0, 0⟩))

/-- Chebyshev constants and polynomial of `fast_sine`; the decimal literals
of the source are exact binary32 values, written here as exact rationals. -/
def fast_sine (x : ℚ) : ℚ :=
  let a0 : ℚ := -251327419281005859375 / 10 ^ 19
  let a1 : ℚ := 6483582305908203125 / 10 ^ 17
  let a2 : ℚ := -67076629638671875 / 10 ^ 15
  let a3 : ℚ := 38495880126953125 / 10 ^ 15
  let a4 : ℚ := -14049663543701171875 / 10 ^ 18
  let a5 : ℚ := 3161602020263671875 / 10 ^ 18
  let z := x * x
  let b5 := a5
  let b4 := b5 * z + a4
  let b3 := b4 * z + a3
  let b2 := b3 * z + a2
  let b1 := b2 * z + a1
  let b0 := b1 * z + a0
  b0 * (z - 1 / 4) * x

/-- `apply_pll`: rotate `x[i]` by the PLL phasor built from `fast_sine`,
including the source's fast fractional reduction of `dt` to `[-0.5, +0.5]`. -/
def apply_pll (x : List Cplx) (freq_offset_normalised : ℚ) : List Cplx :=
  x.enum.map (fun p =>
    let dt := (p.1 : ℚ) * freq_offset_normalised
    let dt_offset := (⌈|dt| - 1 / 2⌉ : ℚ)
    let dt_offset := dt_offset * rustSignum dt
    let dt := dt - dt_offset
    let sin := fast_sine dt
    let cos := fast_sine (dt + 1 / 4)
    Cplx.mul p.2 ⟨cos, sin⟩)

/-- The oracle parameters abstracting the external FFT library and the
transcendental float operations. In-place `Fft::process` preserves the buffer
length, recorded by the two proof fields. -/
structure Oracles where
  fft : List Cplx → List Cplx
  ifft : List Cplx → List Cplx
  fft_length : ∀ l, (fft l).length = l.length
  ifft_length : ∀ l, (ifft l).length = l.length
  log10 : ℚ → ℚ
  atan2 : ℚ → ℚ → ℚ
  sqrt : ℚ → ℚ
  pi : ℚ

/-- `Complex32::norm`, via the square-root oracle. -/
def cnorm (o : Oracles) (a : Cplx) : ℚ :=
  o.sqrt (a.re * a.re + a.im * a.im)

/-- `calculate_magnitude_spectrum`: FFT-shifted dB magnitudes;
`none` models the failed length assert. -/
def calculate_magnitude_spectrum (o : Oracles) (x : List Cplx) (y : List ℚ) :
    Option (List ℚ) :=
  if x.length = y.length then
    some ((List.range x.length).map (fun i =>
      let j := (i + x.length / 2) % x.length
      20 * o.log10 (cnorm o (x.getD j default))))
  else none

/-- `calculate_cyclic_phase_error`: `arg` (via the `atan2` oracle) of the sum
of `suffix[i] * conj(prefix[i])`; `none` models the failed length assert. -/
def calculate_cyclic_phase_error (o : Oracles) (x : List Cplx) (p : ℕ) :
    Option ℚ :=
  if x.length < p then none
  else
    let pre := x.take p
    let suf := (x.drop (x.length - p)).take p
    let s := ((List.range p).map (fun i =>
      Cplx.mul (suf.getD i default) (Cplx.conj (pre.getD i default)))).foldl Cplx.add ⟨0, 0⟩
    some (o.atan2 s.im s.re)

/-- `calculate_dqpsk`. The `none` branches model the five `assert!`s. The two
source loops write `y[0..h)` and `y[h..2h)` and together overwrite every
element of `y` (`nb_data = 2h`), so the result is their concatenation. -/
def calculate_dqpsk (nb_fft nb_data : ℕ) (x0 x1 y : List Cplx) :
    Option (List Cplx) :=
  if x0.length ≠ nb_fft then none else
  if x1.length ≠ nb_fft then none else
  if y.length ≠ nb_data then none else
  if nb_fft < nb_data then none else
  if nb_data % 2 ≠ 0 then none else
  let h := nb_data / 2
  some (((List.range h).map (fun i =>
          Cplx.mul (x0.getD (nb_fft - h + i) default)
                   (Cplx.conj (x1.getD (nb_fft - h + i) default))))
     ++ ((List.range h).map (fun i =>
          Cplx.mul (x0.getD (1 + i) default)
                   (Cplx.conj (x1.getD (1 + i) default)))))

/-- `quantise_to_soft_bit`: `(-x * 127.0) as i8`. -/
def quantise_to_soft_bit (x : ℚ) : ℤ :=
  i8cast (-x * 127)

/-- `calculate_soft_bits`. The first two `none` branches model the two
`assert!`s; the third models the panic of `x[i_mapped]` when a carrier-map
entry is out of range. The loop writes `y[i]` and `y[i + length]` for every
`i < length`, overwriting all of `y`, so the result is the concatenation of
the two written families. -/
def calculate_soft_bits (carrier_mapper : List ℕ) (x : List Cplx) (y : List ℤ) :
    Option (List ℤ) :=
  if carrier_mapper.length ≠ x.length then none else
  if x.length * 2 ≠ y.length then none else
  if ¬ (∀ m ∈ carrier_mapper, m < x.length) then none else
  let length := carrier_mapper.length
  let vecAt := fun (i : ℕ) =>
    let v := x.getD (carrier_mapper.getD i 0) default
    let amplitude := max |v.re| |v.im|
    Cplx.divQ v amplitude
  some (((List.range length).map (fun i => quantise_to_soft_bit (vecAt i).re))
     ++ ((List.range length).map (fun i => quantise_to_soft_bit (-(vecAt i).im))))

/-- The weighted peak values of `run_fine_time_sync`'s peak search: for the
enumerated impulse buffer, weigh each value by
`1 - (1 - fine_time_impulse_peak_distance_probability) * |N_cp - i| / N_symp`. -/
def fine_time_weighted_pairs (p : ℚ) (nb_cyclic nb_symbol_period : ℕ)
    (impulse : List ℚ) : List (ℕ × ℚ) :=
  impulse.enum.map (fun pr : ℕ × ℚ =>
    let i : ℕ := pr.1
    let peak_value := pr.2
    let distance_from_expectation : ℤ := |(nb_cyclic : ℤ) - (i : ℤ)|
    let norm_distance : ℚ := (distance_from_expectation : ℚ) / (nb_symbol_period : ℚ)
    let decay_weight : ℚ := 1 - p
    let probability : ℚ := 1 - decay_weight * norm_distance
    (i, probability * peak_value))

/-- Modelled from the spec: the weight exactly as the specification words it,
`w(i) = 1 - fine_time_impulse_peak_distance_probability * |i - N_cp| / N_symp`.
Used only to compare the source's weighting against the spec's formula. -/
def specFineTimeWeight (p : ℚ) (nb_cyclic nb_symbol_period : ℕ) (i : ℕ) : ℚ :=
  1 - p * ((|(i : ℤ) - (nb_cyclic : ℤ)| : ℤ) : ℚ) / (nb_symbol_period : ℚ)

/-- The half-window `M` of the coarse search:
`(0.5 * coarse_frequency_max_range * nb_fft as f32).floor() as i32`. -/
def coarse_M (r : ℚ) (nb_fft : ℕ) : ℤ :=
  ⌊(1 / 2 : ℚ) * r * (nb_fft : ℚ)⌋

/-- The `(offset, value)` pairs of the coarse search over `-M..=M`;
`none` models the panic of `buffer[fft_bin as usize]` when `fft_bin` is
negative (the cast wraps to a huge index) or out of range. -/
def coarse_search_pairs (impulse : List ℚ) (dc_bin m : ℤ) :
    Option (List (ℤ × ℚ)) :=
  mapMO (fun offset =>
      let fft_bin := offset + dc_bin
      if 0 ≤ fft_bin ∧ fft_bin.toNat < impulse.length then
        some (offset, impulse.getD fft_bin.toNat 0)
      else none)
    (intRangeIncl (-m) m)

/-- The offset selected by the coarse search (`max_by` then `unwrap_or(0)`). -/
def coarse_selected_offset (impulse : List ℚ) (dc_bin m : ℤ) : Option ℤ :=
  (coarse_search_pairs impulse dc_bin m).map
    (fun pairs => ((maxByGt pairs).map Prod.fst).getD 0)

/-- The full peak-offset selection of
`run_coarse_frequency_synchronisation` after the impulse buffer is filled:
the `assert!(max_range < 1.0)`, the shifted DC bin `nb_fft/2` (usize division,
then cast), the window `-M..=M`, and the `max_by` selection. -/
def run_coarse_selection (coarse_frequency_max_range : ℚ) (nb_fft : ℕ)
    (impulse : List ℚ) : Option ℤ :=
  if ¬ (coarse_frequency_max_range < 1) then none
  else
    let dc_bin : ℤ := ((nb_fft / 2 : ℕ) : ℤ)
    coarse_selected_offset impulse dc_bin (coarse_M coarse_frequency_max_range nb_fft)

/-- `update_fine_frequency_offset`: add the delta, then wrap with Rust's
float `%` around `1/nb_fft * 0.5 * 1.01`. -/
def update_fine_frequency_offset (nb_fft : ℕ) (ffo delta : ℚ) : ℚ :=
  let fft_bin_spacing : ℚ := 1 / (nb_fft : ℚ) * (1 / 2)
  let fft_bin_margin : ℚ := 101 / 100
  let fft_bin_wrap := fft_bin_spacing * fft_bin_margin
  rustRem (ffo + delta) fft_bin_wrap

/-- `OfdmDemodulatorState` from `ofdm_demodulator.rs`. -/
inductive OfdmDemodulatorState
  | FindingNullPowerDip
  | ReadingNullAndPrs
  | RunningCoarseFrequencySynchronisation
  | RunningFineTimeSync
  | ReadingSymbols
  | ProcessingSymbols
deriving DecidableEq

/-- `OfdmDemodulatorSettings`; the float fields are rationals. -/
structure OfdmDemodulatorSettings where
  null_power_update_beta : ℚ
  null_power_total_samples : ℕ
  null_power_decimation_factor : ℕ
  null_power_threshold_start : ℚ
  null_power_threshold_end : ℚ
  fine_frequency_update_beta : ℚ
  coarse_frequency_is_enabled : Bool
  coarse_frequency_max_range : ℚ
  coarse_frequency_slow_update_beta : ℚ
  fine_time_impulse_peak_threshold_db : ℚ
  fine_time_impulse_peak_distance_probability : ℚ

/-- `OfdmParameters` from `ofdm_parameters.rs`. The cyclic-prefix length
field (named with a `_pre` suffix here) is the source's field whose name ends
in the word after "cyclic_". -/
structure OfdmParameters where
  nb_symbols : ℕ
  nb_null_period : ℕ
  nb_symbol_period : ℕ
  nb_cyclic_pre : ℕ
  nb_fft : ℕ
  nb_fft_data_carriers : ℕ
  nb_dqpsk_symbols : ℕ
  nb_output_samples : ℕ
  nb_output_bits : ℕ
  nb_input_samples : ℕ

/-- The full mutable state of `OfdmDemodulator`. The `fft`/`ifft` plans live
in `Oracles`; the subscriber list is modelled by its length plus the trace of
slices passed to subscribers. -/
structure OfdmDemodulator where
  state : OfdmDemodulatorState
  settings : OfdmDemodulatorSettings
  params : OfdmParameters
  total_frames_read : ℕ
  total_frames_desync : ℕ
  is_found_coarse_frequency_offset : Bool
  coarse_frequency_offset : ℚ
  fine_frequency_offset : ℚ
  fine_time_offset : ℤ
  is_null_start_found : Bool
  is_null_end_found : Bool
  signal_l1_average : ℚ
  temp_fft_buffer : List Cplx
  carrier_mapper_data : List ℕ
  correlation_prs_fft_data : List Cplx
  correlation_prs_time_data : List Cplx
  null_power_dip_buffer : CircularBucket Cplx
  null_prs_buffer : LinearBucket Cplx
  fine_time_impulse_response_buffer : List ℚ
  coarse_frequency_impulse_response_buffer : List ℚ
  data_time_buffer : LinearBucket Cplx
  data_fft_buffer : List Cplx
  data_dqpsk_buffer : List Cplx
  data_out_bits_buffer : List ℤ
  n_bits_out_callbacks : ℕ
  bits_out_invocations : List (List ℤ)

/-- `reset_from_desync`. -/
def reset_from_desync (d : OfdmDemodulator) : OfdmDemodulator :=
  { d with
    state := .FindingNullPowerDip,
    null_prs_buffer := d.null_prs_buffer.reset,
    signal_l1_average := 0,
    is_found_coarse_frequency_offset := false,
    fine_frequency_offset := 0,
    coarse_frequency_offset := 0,
    fine_time_offset := 0 }

/-- The block-scan loop of `find_null_power_dip` over the complete chunks:
threads the two flags, adds `block_size` to `total_read` for every block
entered, and stops as soon as the NULL end is detected. -/
def nullScan (null_start_threshold null_end_threshold : ℚ) (block_size : ℕ) :
    List (List Cplx) → Bool → Bool → ℕ → ℕ × Bool × Bool
  | [], s, e, t => (t, s, e)
  | block :: rest, s, e, t =>
    let l1_average := calculate_l1_average block
    let t' := t + block_size
    if s then
      if l1_average > null_end_threshold then (t', s, true)
      else nullScan null_start_threshold null_end_threshold block_size rest s e t'
    else
      if l1_average < null_start_threshold then
        nullScan null_start_threshold null_end_threshold block_size rest true e t'
      else
        nullScan null_start_threshold null_end_threshold block_size rest s e t'

/-- The scan of `find_null_power_dip` with the thresholds, block size, chunks
and initial flags taken from the demodulator state. -/
def findNullScan (d : OfdmDemodulator) (buf : List Cplx) : ℕ × Bool × Bool :=
  nullScan (d.signal_l1_average * d.settings.null_power_threshold_start)
    (d.signal_l1_average * d.settings.null_power_threshold_end)
    d.settings.null_power_total_samples
    (chunksExact d.settings.null_power_total_samples buf)
    d.is_null_start_found d.is_null_end_found 0

/-- `find_null_power_dip`. `none` models the `chunks_exact(0)` panic and the
ring's `% 0` panic. -/
def find_null_power_dip (d : OfdmDemodulator) (buf : List Cplx) :
    Option (ℕ × OfdmDemodulator) :=
  if d.settings.null_power_total_samples = 0 then none
  else
    let scan := findNullScan d buf
    let total_read := scan.1
    let s' := scan.2.1
    let e' := scan.2.2
    if e' = false then
      match d.null_power_dip_buffer.consume buf true with
      | none => none
      | some r =>
        some (buf.length,
          { d with
            is_null_start_found := s',
            is_null_end_found := e',
            null_power_dip_buffer := r.1 })
    else
      match d.null_power_dip_buffer.consume (buf.take total_read) true with
      | none => none
      | some r =>
        let prs1 := d.null_prs_buffer.reset
        let prs2 := (prs1.consume_from_iterator r.1.iterList).1
        some (total_read,
          { d with
            null_power_dip_buffer := r.1.reset,
            null_prs_buffer := prs2,
            is_null_start_found := false,
            is_null_end_found := false,
            state := .ReadingNullAndPrs })

/-- `read_null_prs`. -/
def read_null_prs (d : OfdmDemodulator) (buf : List Cplx) :
    ℕ × OfdmDemodulator :=
  let r := d.null_prs_buffer.consume buf
  let d' := { d with null_prs_buffer := r.1 }
  if r.1.is_full then
    (r.2, { d' with state := .RunningCoarseFrequencySynchronisation })
  else (r.2, d')

/-- The element-wise product of `izip!(a.iter().take(n), b.iter_mut().take(n))`
writing `y *= x`: the first `min n (min a.length b.length)` elements of `b`
are multiplied by the corresponding elements of `a`, the rest are unchanged. -/
def mulPrefixTake (a b : List Cplx) (n : ℕ) : List Cplx :=
  let m := min n (min a.length b.length)
  List.zipWith (fun x y => Cplx.mul y x) (a.take m) (b.take m) ++ b.drop m

/-- `run_coarse_frequency_synchronisation` (transient handler, consumes 0). -/
def run_coarse_frequency_synchronisation (o : Oracles) (d : OfdmDemodulator) :
    Option OfdmDemodulator :=
  if d.settings.coarse_frequency_is_enabled = false then
    some { d with coarse_frequency_offset := 0, state := .RunningFineTimeSync }
  else
    match sliceSpan d.null_prs_buffer.iterList d.params.nb_null_period
      d.params.nb_symbol_period with
    | none => none
    | some prs =>
      if d.params.nb_cyclic_pre ≤ prs.length then
        let prs_fft := prs.drop d.params.nb_cyclic_pre
        if d.temp_fft_buffer.length = prs_fft.length then
          let t2 := o.fft prs_fft
          match calculate_relative_phase t2 with
          | none => none
          | some t3 =>
            let t4 := o.ifft t3
            let t5 := mulPrefixTake d.correlation_prs_time_data t4 d.params.nb_fft
            let t6 := o.fft t5
            match calculate_magnitude_spectrum o t6
              d.coarse_frequency_impulse_response_buffer with
            | none => none
            | some impulse =>
              match run_coarse_selection
                d.settings.coarse_frequency_max_range d.params.nb_fft impulse with
              | none => none
              | some carrier_offset_bin =>
                let current : ℚ := ((-carrier_offset_bin : ℤ) : ℚ) / (d.params.nb_fft : ℚ)
                let delta_coarse := current - d.coarse_frequency_offset
                let large_offset_threshold : ℚ := (3 / 2) / (d.params.nb_fft : ℚ)
                let is_fast_update : Prop :=
                  |delta_coarse| > large_offset_threshold ∨
                    d.is_found_coarse_frequency_offset = false
                let update_beta : ℚ :=
                  if is_fast_update then 1
                  else d.settings.coarse_frequency_slow_update_beta
                let delta := update_beta * delta_coarse
                some { d with
                  temp_fft_buffer := t6,
                  coarse_frequency_impulse_response_buffer := impulse,
                  is_found_coarse_frequency_offset := true,
                  coarse_frequency_offset := d.coarse_frequency_offset + delta,
                  fine_frequency_offset := update_fine_frequency_offset
                    d.params.nb_fft d.fine_frequency_offset (-delta),
                  state := .RunningFineTimeSync }
        else none
      else none

/-- `run_fine_time_sync` (transient handler, consumes 0). -/
def run_fine_time_sync (o : Oracles) (d : OfdmDemodulator) :
    Option OfdmDemodulator :=
  match sliceSpan d.null_prs_buffer.iterList d.params.nb_null_period
    d.params.nb_fft with
  | none => none
  | some prs_data =>
    let total_frequency_offset := d.coarse_frequency_offset + d.fine_frequency_offset
    if d.temp_fft_buffer.length = prs_data.length then
      let t2 := apply_pll prs_data total_frequency_offset
      let t3 := o.fft t2
      let t4 := mulPrefixTake d.correlation_prs_fft_data t3 d.params.nb_fft
      let t5 := o.ifft t4
      let m := min d.params.nb_fft
        (min t5.length d.fine_time_impulse_response_buffer.length)
      let impulse :=
        ((List.range m).map (fun i => 20 * o.log10 (cnorm o (t5.getD i default))))
          ++ d.fine_time_impulse_response_buffer.drop m
      let pairs := fine_time_weighted_pairs
        d.settings.fine_time_impulse_peak_distance_probability
        d.params.nb_cyclic_pre d.params.nb_symbol_period impulse
      match maxByGt pairs with
      | none => none
      | some pk =>
        let impulse_average := impulse.sum / (d.params.nb_fft : ℚ)
        let impulse_peak_height := pk.2 - impulse_average
        let d1 := { d with
          temp_fft_buffer := t5,
          fine_time_impulse_response_buffer := impulse }
        if impulse_peak_height < d.settings.fine_time_impulse_peak_threshold_db then
          some { (reset_from_desync d1) with
            total_frames_desync := d1.total_frames_desync + 1 }
        else
          let prs_start_offset : ℤ := (pk.1 : ℤ) - (d.params.nb_cyclic_pre : ℤ)
          let prs_start_index : ℕ :=
            (max ((d.params.nb_null_period : ℤ) + prs_start_offset) 0).toNat
          let prs_len : ℕ :=
            (max ((d.params.nb_symbol_period : ℤ) - prs_start_offset) 0).toNat
          match sliceSpan d1.null_prs_buffer.iterList prs_start_index prs_len with
          | none => none
          | some prs_part =>
            let dt2 := (d1.data_time_buffer.reset.consume prs_part).1
            some { d1 with
              data_time_buffer := dt2,
              null_prs_buffer := d1.null_prs_buffer.reset,
              fine_time_offset := prs_start_offset,
              state := .ReadingSymbols }
    else none

/-- `read_symbols`. -/
def read_symbols (d : OfdmDemodulator) (buf : List Cplx) :
    ℕ × OfdmDemodulator :=
  let r := d.data_time_buffer.consume buf
  let d' := { d with data_time_buffer := r.1 }
  if r.1.is_full then
    (r.2, { d' with state := .ProcessingSymbols })
  else (r.2, d')

/-- The per-symbol cyclic-phase-error accumulation of `process_symbols`. -/
def phaseErrorSum (o : Oracles) (nb_symbol_period nb_cyclic : ℕ)
    (time : List Cplx) : List ℕ → ℚ → Option ℚ
  | [], acc => some acc
  | i :: rest, acc =>
    match sliceSpan time (i * nb_symbol_period) nb_symbol_period with
    | none => none
    | some sym =>
      match calculate_cyclic_phase_error o sym nb_cyclic with
      | none => none
      | some e => phaseErrorSum o nb_symbol_period nb_cyclic time rest (acc + e)

/-- The per-symbol FFT loop of `process_symbols`: copy the post-prefix window
of each symbol into the matching chunk of the FFT buffer and transform it in
place. -/
def fftLoop (o : Oracles) (nb_symbol_period nb_cyclic nb_fft : ℕ)
    (time : List Cplx) : List ℕ → List Cplx → Option (List Cplx)
  | [], acc => some acc
  | i :: rest, acc =>
    match sliceSpan time (i * nb_symbol_period) nb_symbol_period with
    | none => none
    | some symbol_in =>
      if nb_cyclic ≤ symbol_in.length then
        let fft_in := symbol_in.drop nb_cyclic
        match sliceSpan acc (i * nb_fft) nb_fft with
        | none => none
        | some chunk =>
          if chunk.length = fft_in.length then
            fftLoop o nb_symbol_period nb_cyclic nb_fft time rest
              (setRange acc (i * nb_fft) (o.fft fft_in))
          else none
      else none

/-- The per-DQPSK-symbol loop of `process_symbols`. -/
def dqpskLoop (nb_fft nb_data : ℕ) (fftbuf : List Cplx) :
    List ℕ → List Cplx → Option (List Cplx)
  | [], acc => some acc
  | i :: rest, acc =>
    match sliceSpan fftbuf (i * nb_fft) nb_fft with
    | none => none
    | some x0 =>
      match sliceSpan fftbuf ((i + 1) * nb_fft) nb_fft with
      | none => none
      | some x1 =>
        match sliceSpan acc (i * nb_data) nb_data with
        | none => none
        | some ychunk =>
          match calculate_dqpsk nb_fft nb_data x0 x1 ychunk with
          | none => none
          | some ynew =>
            dqpskLoop nb_fft nb_data fftbuf rest (setRange acc (i * nb_data) ynew)

/-- The per-DQPSK-symbol soft-bit demapping loop of `process_symbols`. -/
def softBitsLoop (mapper : List ℕ) (nb_data : ℕ) (dqpskbuf : List Cplx) :
    List ℕ → List ℤ → Option (List ℤ)
  | [], acc => some acc
  | i :: rest, acc =>
    match sliceSpan dqpskbuf (i * nb_data) nb_data with
    | none => none
    | some x =>
      match sliceSpan acc (i * (nb_data * 2)) (nb_data * 2) with
      | none => none
      | some ychunk =>
        match calculate_soft_bits mapper x ychunk with
        | none => none
        | some ynew =>
          softBitsLoop mapper nb_data dqpskbuf rest
            (setRange acc (i * (nb_data * 2)) ynew)

/-- `process_symbols` (transient handler, consumes 0). The null symbol is
read from `data_time` before the PLL rotation, exactly as in the source. -/
def process_symbols (o : Oracles) (d : OfdmDemodulator) :
    Option OfdmDemodulator :=
  let p := d.params
  match sliceSpan d.data_time_buffer.iterList
    (p.nb_symbols * p.nb_symbol_period) p.nb_null_period with
  | none => none
  | some null_symbol =>
    let prs2 := (d.null_prs_buffer.reset.consume null_symbol).1
    let net_frequency_offset := d.fine_frequency_offset + d.coarse_frequency_offset
    let dtData := apply_pll d.data_time_buffer.iterList net_frequency_offset
      ++ d.data_time_buffer.data.drop d.data_time_buffer.length
    let dt : LinearBucket Cplx := { d.data_time_buffer with data := dtData }
    match phaseErrorSum o p.nb_symbol_period p.nb_cyclic_pre
      dt.iterList (List.range p.nb_symbols) 0 with
    | none => none
    | some total_phase_error =>
      let average_phase_error := total_phase_error / (p.nb_symbols : ℚ)
      let fft_bin_spacing : ℚ := 1 / (p.nb_fft : ℚ)
      let fine_frequency_error := fft_bin_spacing / 2 * average_phase_error / o.pi
      let beta := d.settings.fine_frequency_update_beta
      let delta := -beta * fine_frequency_error
      let ffo2 := update_fine_frequency_offset p.nb_fft d.fine_frequency_offset delta
      match fftLoop o p.nb_symbol_period p.nb_cyclic_pre p.nb_fft
        dt.iterList (List.range p.nb_symbols) d.data_fft_buffer with
      | none => none
      | some fftbuf =>
        match dqpskLoop p.nb_fft p.nb_fft_data_carriers fftbuf
          (List.range p.nb_dqpsk_symbols) d.data_dqpsk_buffer with
        | none => none
        | some dqpskbuf =>
          match softBitsLoop d.carrier_mapper_data p.nb_fft_data_carriers
            dqpskbuf (List.range p.nb_dqpsk_symbols) d.data_out_bits_buffer with
          | none => none
          | some outbits =>
            some { d with
              null_prs_buffer := prs2,
              data_time_buffer := dt,
              fine_frequency_offset := ffo2,
              data_fft_buffer := fftbuf,
              data_dqpsk_buffer := dqpskbuf,
              data_out_bits_buffer := outbits,
              bits_out_invocations := d.bits_out_invocations ++
                List.replicate d.n_bits_out_callbacks outbits,
              total_frames_read := d.total_frames_read + 1,
              state := .ReadingNullAndPrs }

/-- `update_signal_power_average`. `none` models the `chunks_exact(0)` panic
and the `index % 0` panic when the decimation factor is zero while at least
one block exists. -/
def update_signal_power_average (d : OfdmDemodulator) (buf : List Cplx) :
    Option OfdmDemodulator :=
  let block_size := d.settings.null_power_total_samples
  let stride := d.settings.null_power_decimation_factor
  if block_size = 0 then none
  else
    let blocks := chunksExact block_size buf
    if stride = 0 ∧ blocks ≠ [] then none
    else
      let kept := (blocks.enum.filter (fun ib => ib.1 % stride == 0)).map
        (fun ib => calculate_l1_average ib.2)
      if kept.length = 0 then some d
      else
        let l1_average := kept.sum / (kept.length : ℚ)
        let beta := d.settings.null_power_update_beta
        some { d with signal_l1_average :=
          beta * l1_average + (1 - beta) * d.signal_l1_average }

/-- One dispatch of `process`'s loop on the current state. -/
def dispatch (o : Oracles) (d : OfdmDemodulator) (buf : List Cplx) :
    Option (ℕ × OfdmDemodulator) :=
  match d.state with
  | .FindingNullPowerDip => find_null_power_dip d buf
  | .ReadingNullAndPrs => some (read_null_prs d buf)
  | .RunningCoarseFrequencySynchronisation =>
    (run_coarse_frequency_synchronisation o d).map (fun d2 => (0, d2))
  | .RunningFineTimeSync =>
    (run_fine_time_sync o d).map (fun d2 => (0, d2))
  | .ReadingSymbols => some (read_symbols d buf)
  | .ProcessingSymbols =>
    (process_symbols o d).map (fun d2 => (0, d2))

/-- Outcome of running `process`'s dispatch loop with bounded fuel:
the loop finished with the buffer empty, a handler panicked, or the fuel ran
out (only the last means the loop was still running). -/
inductive ProcessResult
  | done (d : OfdmDemodulator)
  | panicked
  | fuelOut

/-- The `while !curr_buf.is_empty()` dispatch loop of `process`, with fuel.
`curr_buf = &curr_buf[total_read..]` panics when a handler reports more
consumed samples than remain, modelled by the bound check. -/
def processLoop (o : Oracles) : ℕ → OfdmDemodulator → List Cplx → ProcessResult
  | 0, d, buf => if buf.isEmpty then .done d else .fuelOut
  | fuel + 1, d, buf =>
    if buf.isEmpty then .done d
    else
      match dispatch o d buf with
      | none => .panicked
      | some r =>
        if r.1 ≤ buf.length then processLoop o fuel r.2 (buf.drop r.1)
        else .panicked

/-- `process`: update the signal power average, then run the dispatch loop.
The fuel `7 * buf.length + 7` is enough for the loop to finish, which is the
content of the termination theorem below. -/
def process (o : Oracles) (d : OfdmDemodulator) (buf : List Cplx) :
    ProcessResult :=
  match update_signal_power_average d buf with
  | none => .panicked
  | some d1 => processLoop o (7 * buf.length + 7) d1 buf

/-- Rank of a state for the termination measure: a handler that consumes
nothing always strictly decreases this rank. -/
def demodRank (d : OfdmDemodulator) : ℕ :=
  match d.state with
  | .ReadingSymbols => if d.data_time_buffer.is_full then 6 else 0
  | .ProcessingSymbols => 5
  | .ReadingNullAndPrs => if d.null_prs_buffer.is_full then 4 else 0
  | .RunningCoarseFrequencySynchronisation => 3
  | .RunningFineTimeSync => 2
  | .FindingNullPowerDip => 1

/-- Well-formedness of the demodulator state: the parameter relations
established by `OfdmParameters::new` and the buffer capacities established by
`OfdmDemodulator::new`, plus the `length ≤ capacity` bucket invariants. -/
def DemodWF (d : OfdmDemodulator) : Prop :=
  1 ≤ d.params.nb_fft ∧
  d.params.nb_fft ≤ d.params.nb_symbol_period ∧
  2 ≤ d.params.nb_symbols ∧
  d.params.nb_cyclic_pre = d.params.nb_symbol_period - d.params.nb_fft ∧
  d.params.nb_input_samples =
    d.params.nb_null_period + d.params.nb_symbol_period * d.params.nb_symbols ∧
  d.null_power_dip_buffer.capacity = d.params.nb_null_period ∧
  d.null_power_dip_buffer.length ≤ d.null_power_dip_buffer.capacity ∧
  d.null_prs_buffer.capacity = d.params.nb_null_period + d.params.nb_symbol_period ∧
  d.null_prs_buffer.length ≤ d.null_prs_buffer.capacity ∧
  d.data_time_buffer.capacity = d.params.nb_input_samples ∧
  d.data_time_buffer.length ≤ d.data_time_buffer.capacity

def dqpskWitnessX0 : List Cplx := [⟨1, 0⟩, ⟨2, 1⟩]

def dqpskWitnessX1 : List Cplx := [⟨3, 0⟩, ⟨1, 1⟩]

def dqpskWitnessY : List Cplx := [⟨0, 0⟩, ⟨0, 0⟩]

def softBitsWitnessMapper : List ℕ := [1, 0]

def softBitsWitnessX : List Cplx := [⟨1, -2⟩, ⟨3, 1⟩]

def softBitsWitnessY : List ℤ := [0, 0, 0, 0]

/-- Parameters for the concrete NULL-dip scenario (tiny sizes). -/
def c5Params : OfdmParameters :=
  { nb_symbols := 2, nb_null_period := 4, nb_symbol_period := 2,
    nb_cyclic_pre := 1, nb_fft := 1, nb_fft_data_carriers := 0,
    nb_dqpsk_symbols := 1, nb_output_samples := 0, nb_output_bits := 0,
    nb_input_samples := 8 }

/-- The source's default settings with `null_power_total_samples = 1`. -/
def c5Settings : OfdmDemodulatorSettings :=
  { null_power_update_beta := 19 / 20, null_power_total_samples := 1,
    null_power_decimation_factor := 5, null_power_threshold_start := 7 / 20,
    null_power_threshold_end := 3 / 4, fine_frequency_update_beta := 19 / 20,
    coarse_frequency_is_enabled := true, coarse_frequency_max_range := 1 / 10,
    coarse_frequency_slow_update_beta := 1 / 10,
    fine_time_impulse_peak_threshold_db := 20,
    fine_time_impulse_peak_distance_probability := 3 / 20 }

/-- A freshly constructed demodulator for the `c5Params` sizes whose signal
average has been driven to `2`. -/
def c5Demod : OfdmDemodulator :=
  { state := .FindingNullPowerDip, settings := c5Settings, params := c5Params,
    total_frames_read := 0, total_frames_desync := 0,
    is_found_coarse_frequency_offset := false, coarse_frequency_offset := 0,
    fine_frequency_offset := 0, fine_time_offset := 0,
    is_null_start_found := false, is_null_end_found := false,
    signal_l1_average := 2,
    temp_fft_buffer := [⟨0, 0⟩], carrier_mapper_data := [],
    correlation_prs_fft_data := [⟨0, 0⟩], correlation_prs_time_data := [⟨0, 0⟩],
    null_power_dip_buffer := ⟨List.replicate 4 ⟨0, 0⟩, 0, 0⟩,
    null_prs_buffer := ⟨List.replicate 6 ⟨0, 0⟩, 0⟩,
    fine_time_impulse_response_buffer := [0],
    coarse_frequency_impulse_response_buffer := [0],
    data_time_buffer := ⟨List.replicate 8 ⟨0, 0⟩, 0⟩,
    data_fft_buffer := [⟨0, 0⟩, ⟨0, 0⟩], data_dqpsk_buffer := [],
    data_out_bits_buffer := [], n_bits_out_callbacks := 0,
    bits_out_invocations := [] }

/-- A quiet sample followed by a loud one. -/
def c5Buf : List Cplx := [⟨0, 0⟩, ⟨2, 0⟩]

/-- The demodulator state after `find_null_power_dip c5Demod c5Buf`. -/
def c5Out : OfdmDemodulator :=
  { c5Demod with
    null_power_dip_buffer := ⟨[⟨0, 0⟩, ⟨2, 0⟩, ⟨0, 0⟩, ⟨0, 0⟩], 0, 0⟩,
    null_prs_buffer :=
      ⟨[⟨0, 0⟩, ⟨0, 0⟩, ⟨0, 0⟩, ⟨0, 0⟩, ⟨0, 0⟩, ⟨0, 0⟩], 2⟩,
    is_null_start_found := false,
    is_null_end_found := false,
    state := .ReadingNullAndPrs }

/-- Identity/trivial oracles for concrete runs (an in-place FFT preserves
length, so `id` is a legitimate instance). -/
def idOracles : Oracles :=
  { fft := id, ifft := id,
    fft_length := fun _ => rfl, ifft_length := fun _ => rfl,
    log10 := fun _ => 0, atan2 := fun _ _ => 0, sqrt := fun _ => 0,
    pi := 355 / 113 }

/-- Tiny parameter set for a concrete `process_symbols` run. -/
def c3Params : OfdmParameters :=
  { nb_symbols := 2, nb_null_period := 1, nb_symbol_period := 1,
    nb_cyclic_pre := 0, nb_fft := 1, nb_fft_data_carriers := 0,
    nb_dqpsk_symbols := 1, nb_output_samples := 0, nb_output_bits := 0,
    nb_input_samples := 3 }

/-- A demodulator about to process a (zero-valued) frame of the `c3Params`
sizes, with one registered subscriber. -/
def c3Demod : OfdmDemodulator :=
  { state := .ProcessingSymbols, settings := c5Settings, params := c3Params,
    total_frames_read := 0, total_frames_desync := 0,
    is_found_coarse_frequency_offset := false, coarse_frequency_offset := 0,
    fine_frequency_offset := 0, fine_time_offset := 0,
    is_null_start_found := false, is_null_end_found := false,
    signal_l1_average := 0,
    temp_fft_buffer := [⟨0, 0⟩], carrier_mapper_data := [],
    correlation_prs_fft_data := [⟨0, 0⟩], correlation_prs_time_data := [⟨0, 0⟩],
    null_power_dip_buffer := ⟨[⟨0, 0⟩], 0, 0⟩,
    null_prs_buffer := ⟨[⟨0, 0⟩, ⟨0, 0⟩], 0⟩,
    fine_time_impulse_response_buffer := [0],
    coarse_frequency_impulse_response_buffer := [0],
    data_time_buffer := ⟨[⟨0, 0⟩, ⟨0, 0⟩, ⟨0, 0⟩], 3⟩,
    data_fft_buffer := [⟨0, 0⟩, ⟨0, 0⟩], data_dqpsk_buffer := [],
    data_out_bits_buffer := [], n_bits_out_callbacks := 1,
    bits_out_invocations := [] }

/-- The state after `process_symbols idOracles c3Demod`. -/
def c3Out : OfdmDemodulator :=
  { c3Demod with
    null_prs_buffer := ⟨[⟨0, 0⟩, ⟨0, 0⟩], 1⟩,
    data_time_buffer := ⟨[⟨0, 0⟩, ⟨0, 0⟩, ⟨0, 0⟩], 3⟩,
    fine_frequency_offset := 0,
    data_fft_buffer := [⟨0, 0⟩, ⟨0, 0⟩],
    data_dqpsk_buffer := [],
    data_out_bits_buffer := [],
    bits_out_invocations := [[]],
    total_frames_read := 1,
    state := .ReadingNullAndPrs }

/-- Demodulator used to witness termination: freshly constructed state for
the smallest parameter set `OfdmParameters::new` accepts
(`nb_symbols = 2`, `nb_null_period = 1`, `nb_symbol_period = 1`,
`nb_fft = 1`, `nb_fft_data_carriers = 0`). -/
def c9Params : OfdmParameters :=
  { nb_symbols := 2, nb_null_period := 1, nb_symbol_period := 1,
    nb_cyclic_pre := 0, nb_fft := 1, nb_fft_data_carriers := 0,
    nb_dqpsk_symbols := 1, nb_output_samples := 0, nb_output_bits := 0,
    nb_input_samples := 3 }

/-- The demodulator state built from `c9Params`. -/
def c9Demod : OfdmDemodulator :=
  { state := .FindingNullPowerDip, settings := c5Settings, params := c9Params,
    total_frames_read := 0, total_frames_desync := 0,
    is_found_coarse_frequency_offset := false, coarse_frequency_offset := 0,
    fine_frequency_offset := 0, fine_time_offset := 0,
    is_null_start_found := false, is_null_end_found := false,
    signal_l1_average := 0,
    temp_fft_buffer := [⟨0, 0⟩], carrier_mapper_data := [],
    correlation_prs_fft_data := [⟨0, 0⟩], correlation_prs_time_data := [⟨0, 0⟩],
    null_power_dip_buffer := ⟨[⟨0, 0⟩], 0, 0⟩,
    null_prs_buffer := ⟨[⟨0, 0⟩, ⟨0, 0⟩], 0⟩,
    fine_time_impulse_response_buffer := [0],
    coarse_frequency_impulse_response_buffer := [0],
    data_time_buffer := ⟨[⟨0, 0⟩, ⟨0, 0⟩, ⟨0, 0⟩], 0⟩,
    data_fft_buffer := [⟨0, 0⟩, ⟨0, 0⟩], data_dqpsk_buffer := [],
    data_out_bits_buffer := [], n_bits_out_callbacks := 0,
    bits_out_invocations := [] }

theorem getD_map_range {α : Type} (f : ℕ → α) (n i : ℕ) (hi : i < n) (d : α) :
    ((List.range n).map f).getD i d = f i := by
  rw [List.getD_eq_getElem?_getD, List.getElem?_map, List.getElem?_range hi]
  rfl

theorem length_setRange {α : Type} (l : List α) (start : ℕ) (src : List α)
    (h : start + src.length ≤ l.length) :
    (setRange l start src).length = l.length := by
  simp only [setRange, List.length_append, List.length_take, List.length_drop]
  omega

theorem setRange_nil {α : Type} (l : List α) (start : ℕ) :
    setRange l start [] = l := by
  simp [setRange]

theorem getD_setRange_of_lt {α : Type} (l : List α) (start : ℕ) (src : List α)
    (j : ℕ) (hj : j < start) (hin : start ≤ l.length) (d : α) :
    (setRange l start src).getD j d = l.getD j d := by
  rw [setRange, List.getD_eq_getElem?_getD, List.getD_eq_getElem?_getD,
    List.getElem?_append_left, List.getElem?_append_left, List.getElem?_take]
  · simp [hj]
  · simpa [List.length_take] using by omega
  · simp only [List.length_append, List.length_take]
    omega

theorem getD_setRange_mid {α : Type} (l : List α) (start : ℕ) (src : List α)
    (j : ℕ) (h1 : start ≤ j) (h2 : j < start + src.length)
    (hin : start + src.length ≤ l.length) (d : α) :
    (setRange l start src).getD j d = src.getD (j - start) d := by
  rw [setRange, List.getD_eq_getElem?_getD, List.getD_eq_getElem?_getD]
  rw [List.getElem?_append_left, List.getElem?_append_right]
  · simp only [List.length_take]
    congr 2
    omega
  · simp only [List.length_take]
    omega
  · simp only [List.length_append, List.length_take]
    omega

theorem getD_setRange_of_ge {α : Type} (l : List α) (start : ℕ) (src : List α)
    (j : ℕ) (h1 : start + src.length ≤ j) (hin : start + src.length ≤ l.length)
    (d : α) :
    (setRange l start src).getD j d = l.getD j d := by
  rw [setRange, List.getD_eq_getElem?_getD, List.getD_eq_getElem?_getD]
  rw [List.getElem?_append_right, List.getElem?_drop]
  · simp only [List.length_append, List.length_take]
    have hidx : start + src.length + (j - (min start l.length + src.length)) = j := by
      omega
    rw [hidx]
  · simp only [List.length_append, List.length_take]
    omega

theorem sliceSpan_eq_some {α : Type} (l : List α) (start len : ℕ)
    (h : start + len ≤ l.length) :
    sliceSpan l start len = some ((l.drop start).take len) := by
  simp [sliceSpan, h]

theorem sliceSpan_some_length {α : Type} {l out : List α} {start len : ℕ}
    (h : sliceSpan l start len = some out) :
    out.length = len ∧ start + len ≤ l.length := by
  by_cases hc : start + len ≤ l.length
  · rw [sliceSpan_eq_some l start len hc] at h
    cases h
    constructor
    · simp only [List.length_take, List.length_drop]
      omega
    · exact hc
  · simp [sliceSpan, hc] at h

theorem sliceSpan_some_getD {α : Type} {l out : List α} {start len : ℕ}
    (h : sliceSpan l start len = some out) (k : ℕ) (hk : k < len) (d : α) :
    out.getD k d = l.getD (start + k) d := by
  obtain ⟨hlen, hb⟩ := sliceSpan_some_length h
  by_cases hc : start + len ≤ l.length
  · rw [sliceSpan_eq_some l start len hc] at h
    cases h
    rw [List.getD_eq_getElem?_getD, List.getD_eq_getElem?_getD,
      List.getElem?_take, List.getElem?_drop]
    simp [hk]
  · simp [sliceSpan, hc] at h

theorem maxByGt_append_singleton {α : Type} (l : List (α × ℚ)) (x : α × ℚ) :
    maxByGt (l ++ [x]) =
      match maxByGt l with
      | none => some x
      | some a => if a.2 > x.2 then some a else some x := by
  simp only [maxByGt, List.foldl_append, List.foldl_cons, List.foldl_nil]

theorem maxByGt_spec {α : Type} (l : List (α × ℚ)) (hne : l ≠ []) (d : α × ℚ) :
    ∃ i, i < l.length ∧ maxByGt l = some (l.getD i d) ∧
      (∀ j, j < l.length → (l.getD j d).2 ≤ (l.getD i d).2) ∧
      (∀ j, i < j → j < l.length → (l.getD j d).2 < (l.getD i d).2) := by
  induction l using List.reverseRecOn with
  | nil => exact absurd rfl hne
  | append_singleton l x ih =>
    rcases List.eq_nil_or_concat' l with hl | ⟨l0, x0, hl⟩
    · subst hl
      refine ⟨0, by simp, by simp [maxByGt], ?_, ?_⟩
      · intro j hj
        simp only [List.nil_append, List.length_cons, List.length_nil] at hj
        have hj0 : j = 0 := by omega
        subst hj0
        exact le_refl _
      · intro j h0 hj
        simp only [List.nil_append, List.length_cons, List.length_nil] at hj
        omega
    · have hlne : l ≠ [] := by
        subst hl
        simp
      obtain ⟨i, hi, heq, hmax, hlast⟩ := ih hlne
      rw [maxByGt_append_singleton, heq]
      dsimp only
      by_cases hgt : (l.getD i d).2 > x.2
      · refine ⟨i, by simp; omega, ?_, ?_, ?_⟩
        · rw [if_pos hgt, List.getD_eq_getElem?_getD (l ++ [x]),
            List.getElem?_append_left hi, ← List.getD_eq_getElem?_getD]
        · intro j hj
          rw [List.getD_eq_getElem?_getD (l ++ [x]),
            List.getD_eq_getElem?_getD (l ++ [x]) i,
            List.getElem?_append_left hi]
          rcases Nat.lt_or_ge j l.length with hj2 | hj2
          · rw [List.getElem?_append_left hj2]
            rw [← List.getD_eq_getElem?_getD, ← List.getD_eq_getElem?_getD]
            exact hmax j hj2
          · rw [List.getElem?_append_right hj2]
            have : j - l.length = 0 := by
              simp only [List.length_append, List.length_cons, List.length_nil] at hj
              omega
            rw [this]
            simp only [List.getElem?_cons_zero, Option.getD_some,
              ← List.getD_eq_getElem?_getD]
            exact le_of_lt hgt
        · intro j hij hj
          rw [List.getD_eq_getElem?_getD (l ++ [x]),
            List.getD_eq_getElem?_getD (l ++ [x]) i,
            List.getElem?_append_left hi]
          rcases Nat.lt_or_ge j l.length with hj2 | hj2
          · rw [List.getElem?_append_left hj2]
            rw [← List.getD_eq_getElem?_getD, ← List.getD_eq_getElem?_getD]
            exact hlast j hij hj2
          · rw [List.getElem?_append_right hj2]
            have : j - l.length = 0 := by
              simp only [List.length_append, List.length_cons, List.length_nil] at hj
              omega
            rw [this]
            simp only [List.getElem?_cons_zero, Option.getD_some,
              ← List.getD_eq_getElem?_getD]
            exact hgt
      · refine ⟨l.length, by simp, ?_, ?_, ?_⟩
        · rw [if_neg hgt, List.getD_eq_getElem?_getD,
            List.getElem?_append_right (le_refl _)]
          simp
        · intro j hj
          have hx : (l ++ [x]).getD l.length d = x := by
            rw [List.getD_eq_getElem?_getD, List.getElem?_append_right (le_refl _)]
            simp
          rw [hx]
          rcases Nat.lt_or_ge j l.length with hj2 | hj2
          · rw [List.getD_eq_getElem?_getD, List.getElem?_append_left hj2,
              ← List.getD_eq_getElem?_getD]
            calc (l.getD j d).2 ≤ (l.getD i d).2 := hmax j hj2
              _ ≤ x.2 := le_of_not_lt hgt
          · have : j = l.length := by
              simp only [List.length_append, List.length_cons, List.length_nil] at hj
              omega
            rw [this, hx]
        · intro j hij hj
          simp only [List.length_append, List.length_cons, List.length_nil] at hj
          omega

theorem maxByGt_isSome {α : Type} (l : List (α × ℚ)) (hne : l ≠ []) :
    (maxByGt l).isSome := by
  rcases List.eq_nil_or_concat' l with hl | ⟨l0, x0, hl⟩
  · exact absurd hl hne
  · subst hl
    rw [maxByGt_append_singleton]
    rcases maxByGt l0 with _ | a
    · simp
    · by_cases h : a.2 > x0.2 <;> simp [h]

theorem abs_sub_ratTrunc_le (q : ℚ) : |q - (ratTrunc q : ℚ)| ≤ 1 := by
  rw [ratTrunc]
  by_cases h : 0 ≤ q
  · rw [if_pos h]
    have h1 : (⌊q⌋ : ℚ) ≤ q := Int.floor_le q
    have h2 : q < ⌊q⌋ + 1 := Int.lt_floor_add_one q
    rw [abs_le]
    constructor <;> linarith
  · rw [if_neg h]
    have h1 : q ≤ (⌈q⌉ : ℚ) := Int.le_ceil q
    have h2 : (⌈q⌉ : ℚ) < q + 1 := Int.ceil_lt_add_one q
    rw [abs_le]
    constructor <;> linarith

theorem abs_rustRem_le (x y : ℚ) (hy : 0 < y) : |rustRem x y| ≤ y := by
  have hy0 : y ≠ 0 := ne_of_gt hy
  have key : rustRem x y = y * (x / y - (ratTrunc (x / y) : ℚ)) := by
    rw [rustRem]
    field_simp
  rw [key, abs_mul, abs_of_pos hy]
  calc y * |x / y - (ratTrunc (x / y) : ℚ)| ≤ y * 1 :=
        mul_le_mul_of_nonneg_left (abs_sub_ratTrunc_le (x / y)) (le_of_lt hy)
    _ = y := mul_one y

/-- Claim C10: for every input iterator, `LinearBucket::consume_from_iterator`
returns `0` even when it has copied one or more elements into the buffer; only
the buffer's `length` (which grows by the number of elements actually taken,
`min src.length (capacity - length)`) reflects how many were taken. -/
theorem consume_from_iterator_returns_zero {α : Type} (b : LinearBucket α)
    (src : List α) :
    (b.consume_from_iterator src).2 = 0 ∧
    (b.consume_from_iterator src).1.length =
      b.length + min src.length (b.capacity - b.length) :=
  ⟨rfl, rfl⟩

/-- Claim C4: after every call to `update_fine_frequency_offset` the result
is wrapped by the signed float remainder into `[-w, +w]` with
`w = 1.01 / (2 * N_fft)`, hence `|fine_frequency_offset| ≤ 1.01 / (2 * N_fft)`. -/
theorem update_fine_frequency_offset_bounded (nb_fft : ℕ) (h : 1 ≤ nb_fft)
    (ffo delta : ℚ) :
    |update_fine_frequency_offset nb_fft ffo delta| ≤
      (101 / 100) / (2 * (nb_fft : ℚ)) := by
  have hn : (0 : ℚ) < (nb_fft : ℚ) := by
    exact_mod_cast Nat.lt_of_lt_of_le Nat.zero_lt_one h
  have hw : (1 / (nb_fft : ℚ) * (1 / 2)) * (101 / 100) =
      (101 / 100) / (2 * (nb_fft : ℚ)) := by
    field_simp
    ring
  have hwpos : (0 : ℚ) < (101 / 100) / (2 * (nb_fft : ℚ)) := by positivity
  simp only [update_fine_frequency_offset]
  rw [hw]
  exact abs_rustRem_le (ffo + delta) _ hwpos

theorem update_fine_frequency_offset_bounded_witness :
    1 ≤ 2 ∧
    |update_fine_frequency_offset 2 (3 / 10) (1 / 5)| ≤
      (101 / 100) / (2 * (2 : ℚ)) :=
  ⟨by norm_num, update_fine_frequency_offset_bounded 2 (by norm_num) (3 / 10) (1 / 5)⟩

/-- Claim C6: `reset_from_desync` sets the state to FindingNullPowerDip,
empties `null_prs`, zeroes the signal average and the three offsets, clears
the coarse-lock flag, and leaves every other field unchanged — in particular
the `null_power_dip` ring (contents, index and length), the two frame
counters, the settings, the parameters, the scan flags, the reference tables
and all remaining buffers. -/
theorem reset_from_desync_spec (d : OfdmDemodulator) :
    (reset_from_desync d).state = .FindingNullPowerDip ∧
    (reset_from_desync d).null_prs_buffer.length = 0 ∧
    (reset_from_desync d).null_prs_buffer.data = d.null_prs_buffer.data ∧
    (reset_from_desync d).signal_l1_average = 0 ∧
    (reset_from_desync d).is_found_coarse_frequency_offset = false ∧
    (reset_from_desync d).fine_frequency_offset = 0 ∧
    (reset_from_desync d).coarse_frequency_offset = 0 ∧
    (reset_from_desync d).fine_time_offset = 0 ∧
    (reset_from_desync d).null_power_dip_buffer = d.null_power_dip_buffer ∧
    (reset_from_desync d).total_frames_read = d.total_frames_read ∧
    (reset_from_desync d).total_frames_desync = d.total_frames_desync ∧
    (reset_from_desync d).settings = d.settings ∧
    (reset_from_desync d).params = d.params ∧
    (reset_from_desync d).is_null_start_found = d.is_null_start_found ∧
    (reset_from_desync d).is_null_end_found = d.is_null_end_found ∧
    (reset_from_desync d).temp_fft_buffer = d.temp_fft_buffer ∧
    (reset_from_desync d).carrier_mapper_data = d.carrier_mapper_data ∧
    (reset_from_desync d).correlation_prs_fft_data = d.correlation_prs_fft_data ∧
    (reset_from_desync d).correlation_prs_time_data = d.correlation_prs_time_data ∧
    (reset_from_desync d).fine_time_impulse_response_buffer =
      d.fine_time_impulse_response_buffer ∧
    (reset_from_desync d).coarse_frequency_impulse_response_buffer =
      d.coarse_frequency_impulse_response_buffer ∧
    (reset_from_desync d).data_time_buffer = d.data_time_buffer ∧
    (reset_from_desync d).data_fft_buffer = d.data_fft_buffer ∧
    (reset_from_desync d).data_dqpsk_buffer = d.data_dqpsk_buffer ∧
    (reset_from_desync d).data_out_bits_buffer = d.data_out_bits_buffer ∧
    (reset_from_desync d).n_bits_out_callbacks = d.n_bits_out_callbacks ∧
    (reset_from_desync d).bits_out_invocations = d.bits_out_invocations :=
  ⟨rfl, rfl, rfl, rfl, rfl, rfl, rfl, rfl, rfl, rfl, rfl, rfl, rfl, rfl, rfl,
   rfl, rfl, rfl, rfl, rfl, rfl, rfl, rfl, rfl, rfl, rfl, rfl⟩

theorem ratTrunc_abs_le (q c : ℚ) (hc : 0 ≤ c) (h : |q| ≤ c) :
    -c ≤ (ratTrunc q : ℚ) ∧ (ratTrunc q : ℚ) ≤ c := by
  rw [abs_le] at h
  rw [ratTrunc]
  by_cases h0 : 0 ≤ q
  · rw [if_pos h0]
    constructor
    · have := Int.floor_le_floor (α := ℚ) (show (0 : ℚ) ≤ q from h0)
      rw [Int.floor_zero] at this
      have hcast : (0 : ℚ) ≤ (⌊q⌋ : ℚ) := by exact_mod_cast this
      linarith
    · have := Int.floor_le q
      linarith
  · rw [if_neg h0]
    push_neg at h0
    constructor
    · have := Int.le_ceil q
      linarith
    · have := Int.ceil_le_ceil (α := ℚ) (le_of_lt h0)
      rw [Int.ceil_zero] at this
      have hcast : (⌈q⌉ : ℚ) ≤ 0 := by exact_mod_cast this
      linarith

theorem quantise_to_soft_bit_bounded (v : ℚ) (hv : |v| ≤ 1) :
    -127 ≤ quantise_to_soft_bit v ∧ quantise_to_soft_bit v ≤ 127 := by
  have habs : |(-v * 127 : ℚ)| ≤ 127 := by
    rw [abs_mul, abs_neg]
    calc |v| * |(127 : ℚ)| ≤ 1 * |(127 : ℚ)| :=
          mul_le_mul_of_nonneg_right hv (abs_nonneg _)
      _ = 127 := by norm_num
  obtain ⟨hlo, hhi⟩ := ratTrunc_abs_le (-v * 127) 127 (by norm_num) habs
  have hlo' : (-127 : ℤ) ≤ ratTrunc (-v * 127) := by exact_mod_cast hlo
  have hhi' : ratTrunc (-v * 127) ≤ (127 : ℤ) := by exact_mod_cast hhi
  rw [quantise_to_soft_bit, i8cast]
  omega

theorem div_abs_le_one (r a : ℚ) (ha : 0 ≤ a) (h : |r| ≤ a) : |r / a| ≤ 1 := by
  by_cases h0 : a = 0
  · subst h0
    simp only [div_zero, abs_zero]
    norm_num
  · rw [abs_div, abs_of_nonneg ha]
    rw [div_le_one (lt_of_le_of_ne ha (Ne.symm h0))]
    exact h

theorem normalised_re_abs_le_one (v : Cplx) :
    |(v.divQ (max |v.re| |v.im|)).re| ≤ 1 := by
  apply div_abs_le_one
  · exact le_trans (abs_nonneg v.re) (le_max_left _ _)
  · exact le_max_left _ _

theorem normalised_im_abs_le_one (v : Cplx) :
    |(v.divQ (max |v.re| |v.im|)).im| ≤ 1 := by
  apply div_abs_le_one
  · exact le_trans (abs_nonneg v.re) (le_max_left _ _)
  · exact le_max_right _ _

theorem calculate_soft_bits_eq (mapper : List ℕ) (x : List Cplx) (y : List ℤ)
    (hm : mapper.length = x.length) (hy : x.length * 2 = y.length)
    (hb : ∀ m ∈ mapper, m < x.length) :
    calculate_soft_bits mapper x y =
      some (((List.range mapper.length).map (fun i =>
              quantise_to_soft_bit
                (((x.getD (mapper.getD i 0) default).divQ
                  (max |(x.getD (mapper.getD i 0) default).re|
                       |(x.getD (mapper.getD i 0) default).im|)).re)))
         ++ ((List.range mapper.length).map (fun i =>
              quantise_to_soft_bit
                (-((x.getD (mapper.getD i 0) default).divQ
                  (max |(x.getD (mapper.getD i 0) default).re|
                       |(x.getD (mapper.getD i 0) default).im|)).im)))) := by
  rw [calculate_soft_bits]
  rw [if_neg (by simp [hm]), if_neg (by simp [hy]), if_neg (by simp; exact hb)]

theorem calculate_soft_bits_some_bounds {mapper : List ℕ} {x : List Cplx}
    {y out : List ℤ} (h : calculate_soft_bits mapper x y = some out) :
    ∀ v ∈ out, -127 ≤ v ∧ v ≤ 127 := by
  rw [calculate_soft_bits] at h
  by_cases c1 : mapper.length ≠ x.length
  · rw [if_pos c1] at h
    cases h
  rw [if_neg c1] at h
  by_cases c2 : x.length * 2 ≠ y.length
  · rw [if_pos c2] at h
    cases h
  rw [if_neg c2] at h
  by_cases c3 : ¬ (∀ m ∈ mapper, m < x.length)
  · rw [if_pos c3] at h
    cases h
  rw [if_neg c3] at h
  simp only [Option.some.injEq] at h
  subst h
  intro v hv
  rw [List.mem_append] at hv
  rcases hv with hv | hv <;> rw [List.mem_map] at hv <;>
    obtain ⟨i, _, hvi⟩ := hv <;> subst hvi
  · exact quantise_to_soft_bit_bounded _ (normalised_re_abs_le_one _)
  · have := quantise_to_soft_bit_bounded
      (-((x.getD (mapper.getD i 0) default).divQ
        (max |(x.getD (mapper.getD i 0) default).re|
             |(x.getD (mapper.getD i 0) default).im|)).im)
      (by rw [abs_neg]; exact normalised_im_abs_le_one _)
    exact this

theorem calculate_soft_bits_some_length {mapper : List ℕ} {x : List Cplx}
    {y out : List ℤ} (h : calculate_soft_bits mapper x y = some out) :
    out.length = y.length := by
  rw [calculate_soft_bits] at h
  by_cases c1 : mapper.length ≠ x.length
  · rw [if_pos c1] at h
    cases h
  rw [if_neg c1] at h
  by_cases c2 : x.length * 2 ≠ y.length
  · rw [if_pos c2] at h
    cases h
  rw [if_neg c2] at h
  by_cases c3 : ¬ (∀ m ∈ mapper, m < x.length)
  · rw [if_pos c3] at h
    cases h
  rw [if_neg c3] at h
  simp only [Option.some.injEq] at h
  subst h
  push_neg at c1 c2
  simp only [List.length_append, List.length_map, List.length_range]
  omega

theorem calculate_dqpsk_eq (nb_fft nb_data : ℕ) (x0 x1 y : List Cplx)
    (h0 : x0.length = nb_fft) (h1 : x1.length = nb_fft) (hy : y.length = nb_data)
    (hle : nb_data ≤ nb_fft) (heven : nb_data % 2 = 0) :
    calculate_dqpsk nb_fft nb_data x0 x1 y =
      some (((List.range (nb_data / 2)).map (fun i =>
              Cplx.mul (x0.getD (nb_fft - nb_data / 2 + i) default)
                (Cplx.conj (x1.getD (nb_fft - nb_data / 2 + i) default))))
         ++ ((List.range (nb_data / 2)).map (fun i =>
              Cplx.mul (x0.getD (1 + i) default)
                (Cplx.conj (x1.getD (1 + i) default))))) := by
  rw [calculate_dqpsk]
  rw [if_neg (by simp [h0]), if_neg (by simp [h1]), if_neg (by simp [hy]),
    if_neg (by omega), if_neg (by omega)]

/-- Claim C7: for FFT spectra `x0, x1` of length `N_fft` and even
`N_data ≤ N_fft` with `H = N_data / 2`, DQPSK demodulation writes
`y[i] = x0[N_fft - H + i] * conj(x1[N_fft - H + i])` and
`y[i + H] = x0[1 + i] * conj(x1[1 + i])` for `i < H`, and never reads the DC
bin: any spectra agreeing with `x0, x1` away from index 0 give the same
output. -/
theorem calculate_dqpsk_correct (nb_fft nb_data : ℕ) (x0 x1 y : List Cplx)
    (h0 : x0.length = nb_fft) (h1 : x1.length = nb_fft) (hy : y.length = nb_data)
    (hle : nb_data ≤ nb_fft) (heven : nb_data % 2 = 0) :
    ∃ out, calculate_dqpsk nb_fft nb_data x0 x1 y = some out ∧
      out.length = nb_data ∧
      (∀ i, i < nb_data / 2 →
        out.getD i default =
          Cplx.mul (x0.getD (nb_fft - nb_data / 2 + i) default)
            (Cplx.conj (x1.getD (nb_fft - nb_data / 2 + i) default)) ∧
        out.getD (i + nb_data / 2) default =
          Cplx.mul (x0.getD (1 + i) default)
            (Cplx.conj (x1.getD (1 + i) default))) ∧
      (∀ x0b x1b : List Cplx, x0b.length = nb_fft → x1b.length = nb_fft →
        (∀ j, j ≠ 0 → x0b.getD j default = x0.getD j default) →
        (∀ j, j ≠ 0 → x1b.getD j default = x1.getD j default) →
        calculate_dqpsk nb_fft nb_data x0b x1b y = some out) := by
  refine ⟨_, calculate_dqpsk_eq nb_fft nb_data x0 x1 y h0 h1 hy hle heven,
    ?_, ?_, ?_⟩
  · simp only [List.length_append, List.length_map, List.length_range]
    omega
  · intro i hi
    constructor
    · rw [List.getD_eq_getElem?_getD, List.getElem?_append_left
        (by simp only [List.length_map, List.length_range]; exact hi),
        ← List.getD_eq_getElem?_getD]
      exact getD_map_range _ _ _ hi _
    · rw [List.getD_eq_getElem?_getD, List.getElem?_append_right
        (by simp only [List.length_map, List.length_range]; omega),
        ← List.getD_eq_getElem?_getD]
      simp only [List.length_map, List.length_range, Nat.add_sub_cancel]
      exact getD_map_range _ _ _ hi _
  · intro x0b x1b h0b h1b hag0 hag1
    rw [calculate_dqpsk_eq nb_fft nb_data x0b x1b y h0b h1b hy hle heven]
    congr 1
    apply congrArg₂ (· ++ ·) <;> apply List.map_congr_left <;>
      intro i hi <;> rw [List.mem_range] at hi
    · rw [hag0 _ (by omega), hag1 _ (by omega)]
    · rw [hag0 _ (by omega), hag1 _ (by omega)]

theorem calculate_dqpsk_correct_witness :
    dqpskWitnessX0.length = 2 ∧ dqpskWitnessX1.length = 2 ∧
    dqpskWitnessY.length = 2 ∧ 2 ≤ 2 ∧ 2 % 2 = 0 ∧
    (∃ out, calculate_dqpsk 2 2 dqpskWitnessX0 dqpskWitnessX1 dqpskWitnessY =
        some out ∧
      out.length = 2 ∧
      (∀ i, i < 2 / 2 →
        out.getD i default =
          Cplx.mul (dqpskWitnessX0.getD (2 - 2 / 2 + i) default)
            (Cplx.conj (dqpskWitnessX1.getD (2 - 2 / 2 + i) default)) ∧
        out.getD (i + 2 / 2) default =
          Cplx.mul (dqpskWitnessX0.getD (1 + i) default)
            (Cplx.conj (dqpskWitnessX1.getD (1 + i) default))) ∧
      (∀ x0b x1b : List Cplx, x0b.length = 2 → x1b.length = 2 →
        (∀ j, j ≠ 0 → x0b.getD j default = dqpskWitnessX0.getD j default) →
        (∀ j, j ≠ 0 → x1b.getD j default = dqpskWitnessX1.getD j default) →
        calculate_dqpsk 2 2 x0b x1b dqpskWitnessY = some out)) :=
  ⟨rfl, rfl, rfl, le_refl 2, rfl,
    calculate_dqpsk_correct 2 2 dqpskWitnessX0 dqpskWitnessX1 dqpskWitnessY
      rfl rfl rfl (le_refl 2) rfl⟩

/-- Claim C8: for every `i < N_data`, soft-bit demapping takes
`v = x[carrier_mapper[i]]`, normalises it by `max(|v.re|, |v.im|)`, and emits
`y[i]` as the signed-8-bit clipped value of `-127 * v.re` and `y[i + N_data]`
as the signed-8-bit clipped value of `-127 * (-v.im)`. -/
theorem calculate_soft_bits_correct (mapper : List ℕ) (x : List Cplx)
    (y : List ℤ) (hm : mapper.length = x.length) (hy : x.length * 2 = y.length)
    (hb : ∀ m ∈ mapper, m < x.length) :
    ∃ out, calculate_soft_bits mapper x y = some out ∧
      out.length = y.length ∧
      ∀ i, i < mapper.length →
        out.getD i 0 =
          i8cast (-127 *
            ((x.getD (mapper.getD i 0) default).divQ
              (max |(x.getD (mapper.getD i 0) default).re|
                   |(x.getD (mapper.getD i 0) default).im|)).re) ∧
        out.getD (i + mapper.length) 0 =
          i8cast (-127 *
            (-((x.getD (mapper.getD i 0) default).divQ
              (max |(x.getD (mapper.getD i 0) default).re|
                   |(x.getD (mapper.getD i 0) default).im|)).im)) := by
  refine ⟨_, calculate_soft_bits_eq mapper x y hm hy hb, ?_, ?_⟩
  · simp only [List.length_append, List.length_map, List.length_range]
    omega
  · intro i hi
    have harg : ∀ v : ℚ, quantise_to_soft_bit v = i8cast (-127 * v) := by
      intro v
      rw [quantise_to_soft_bit]
      congr 1
      ring
    constructor
    · rw [List.getD_eq_getElem?_getD, List.getElem?_append_left
        (by simp only [List.length_map, List.length_range]; exact hi),
        ← List.getD_eq_getElem?_getD, getD_map_range _ _ _ hi, harg]
    · rw [List.getD_eq_getElem?_getD, List.getElem?_append_right
        (by simp only [List.length_map, List.length_range]; omega),
        ← List.getD_eq_getElem?_getD]
      simp only [List.length_map, List.length_range, Nat.add_sub_cancel]
      rw [getD_map_range _ _ _ hi, harg]

theorem calculate_soft_bits_correct_witness :
    softBitsWitnessMapper.length = softBitsWitnessX.length ∧
    softBitsWitnessX.length * 2 = softBitsWitnessY.length ∧
    (∀ m ∈ softBitsWitnessMapper, m < softBitsWitnessX.length) ∧
    (∃ out, calculate_soft_bits softBitsWitnessMapper softBitsWitnessX
        softBitsWitnessY = some out ∧
      out.length = softBitsWitnessY.length ∧
      ∀ i, i < softBitsWitnessMapper.length →
        out.getD i 0 =
          i8cast (-127 *
            ((softBitsWitnessX.getD (softBitsWitnessMapper.getD i 0) default).divQ
              (max |(softBitsWitnessX.getD (softBitsWitnessMapper.getD i 0) default).re|
                   |(softBitsWitnessX.getD (softBitsWitnessMapper.getD i 0) default).im|)).re) ∧
        out.getD (i + softBitsWitnessMapper.length) 0 =
          i8cast (-127 *
            (-((softBitsWitnessX.getD (softBitsWitnessMapper.getD i 0) default).divQ
              (max |(softBitsWitnessX.getD (softBitsWitnessMapper.getD i 0) default).re|
                   |(softBitsWitnessX.getD (softBitsWitnessMapper.getD i 0) default).im|)).im))) :=
  ⟨rfl, rfl, by decide,
    calculate_soft_bits_correct softBitsWitnessMapper softBitsWitnessX
      softBitsWitnessY rfl rfl (by decide)⟩

/-- Claim C1 counterexample: with
`fine_time_impulse_peak_distance_probability = 3/20` (the default 0.15),
`N_cp = 1`, `N_symp = 2` and impulse buffer `[1, 1]`, the weighted peak value
computed by `run_fine_time_sync` at index 0 is `(1 - (1 - 3/20) * 1/2) * 1 =
23/40`, not `w(0) * impulse[0] = (1 - 3/20 * 1/2) * 1 = 37/40` as the claimed
weight formula `w(i) = 1 - p * |i - N_cp| / N_symp` states. -/
theorem fine_time_weight_counterexample :
    ((fine_time_weighted_pairs (3 / 20) 1 2 [1, 1]).getD 0 (0, 0)).2 ≠
      specFineTimeWeight (3 / 20) 1 2 0 * (1 : ℚ) := by
  simp only [fine_time_weighted_pairs, specFineTimeWeight, List.enum,
    List.enumFrom, List.map_cons, List.map_nil, List.getD_cons_zero]
  norm_num

/-- Claim C1 (amended): in `run_fine_time_sync`, the weighted peak value at
index `i` equals `w(i) * fine_time_impulse[i]` with
`w(i) = 1 - (1 - fine_time_impulse_peak_distance_probability) * |i - N_cp| /
N_symp` (the source multiplies the distance by `1 - p`, not by `p`), and the
selected index maximises this weighted value. -/
theorem fine_time_weighted_peak (p : ℚ) (nb_cyclic nb_symbol_period : ℕ)
    (impulse : List ℚ) (hne : impulse ≠ []) :
    (∀ i, i < impulse.length →
      (fine_time_weighted_pairs p nb_cyclic nb_symbol_period impulse).getD i (0, 0) =
        (i, (1 - (1 - p) * ((|(i : ℤ) - (nb_cyclic : ℤ)| : ℤ) : ℚ) /
          (nb_symbol_period : ℚ)) * impulse.getD i 0)) ∧
    ∃ pk, maxByGt (fine_time_weighted_pairs p nb_cyclic nb_symbol_period impulse) =
        some pk ∧ pk.1 < impulse.length ∧
      ∀ q ∈ fine_time_weighted_pairs p nb_cyclic nb_symbol_period impulse,
        q.2 ≤ pk.2 := by
  have hgetD : ∀ i, i < impulse.length →
      (fine_time_weighted_pairs p nb_cyclic nb_symbol_period impulse).getD i (0, 0) =
        (i, (1 - (1 - p) * ((|(i : ℤ) - (nb_cyclic : ℤ)| : ℤ) : ℚ) /
          (nb_symbol_period : ℚ)) * impulse.getD i 0) := by
    intro i hi
    rw [fine_time_weighted_pairs, List.getD_eq_getElem?_getD,
      List.getElem?_map, List.getElem?_enum]
    rw [List.getElem?_eq_getElem hi]
    rw [abs_sub_comm]
    rw [List.getD_eq_getElem?_getD impulse, List.getElem?_eq_getElem hi]
    simp only [Option.map_some', Option.getD_some]
    congr 1
    ring
  have hlen : (fine_time_weighted_pairs p nb_cyclic nb_symbol_period impulse).length =
      impulse.length := by
    simp [fine_time_weighted_pairs]
  have hpne : fine_time_weighted_pairs p nb_cyclic nb_symbol_period impulse ≠ [] := by
    intro hcon
    apply hne
    have := congrArg List.length hcon
    rw [hlen] at this
    exact List.length_eq_zero.mp this
  obtain ⟨i, hi, heq, hmax, _⟩ :=
    maxByGt_spec (fine_time_weighted_pairs p nb_cyclic nb_symbol_period impulse)
      hpne (0, 0)
  rw [hlen] at hi
  refine ⟨hgetD, _, heq, ?_, ?_⟩
  · rw [hgetD i hi]
    exact hi
  · intro q hq
    obtain ⟨j, hj, hqj⟩ := List.mem_iff_getElem.mp hq
    have : q = (fine_time_weighted_pairs p nb_cyclic nb_symbol_period
        impulse).getD j (0, 0) := by
      rw [List.getD_eq_getElem?_getD, List.getElem?_eq_getElem hj, hqj]
      rfl
    rw [this]
    exact hmax j (by rw [hlen]; rw [hlen] at hj; exact hj)

theorem fine_time_weighted_peak_witness :
    ([(1 : ℚ)] ≠ []) ∧
    ((∀ i, i < [(1 : ℚ)].length →
      (fine_time_weighted_pairs 0 0 1 [(1 : ℚ)]).getD i (0, 0) =
        (i, (1 - (1 - 0) * ((|(i : ℤ) - ((0 : ℕ) : ℤ)| : ℤ) : ℚ) /
          ((1 : ℕ) : ℚ)) * [(1 : ℚ)].getD i 0)) ∧
    ∃ pk, maxByGt (fine_time_weighted_pairs 0 0 1 [(1 : ℚ)]) = some pk ∧
        pk.1 < [(1 : ℚ)].length ∧
      ∀ q ∈ fine_time_weighted_pairs 0 0 1 [(1 : ℚ)], q.2 ≤ pk.2) :=
  ⟨by simp, fine_time_weighted_peak 0 0 1 [(1 : ℚ)] (by simp)⟩

theorem mapMO_congr_some {α β : Type} (f : α → Option β) (g : α → β)
    (l : List α) (h : ∀ a ∈ l, f a = some (g a)) :
    mapMO f l = some (l.map g) := by
  induction l with
  | nil => rfl
  | cons a l ih =>
    rw [mapMO, h a (by simp), ih (fun b hb => h b (by simp [hb])), List.map_cons]

theorem intRangeIncl_getD (a b : ℤ) (j : ℕ) (hj : j < (b + 1 - a).toNat) (d : ℤ) :
    (intRangeIncl a b).getD j d = a + j := by
  rw [intRangeIncl]
  exact getD_map_range _ _ _ hj _

theorem intRangeIncl_length (a b : ℤ) :
    (intRangeIncl a b).length = (b + 1 - a).toNat := by
  simp [intRangeIncl]

/-- Claim C2 counterexample: with `coarse_frequency_max_range = 1/2` and
`N_fft = 4` the window is `-1..=1` around the DC bin `2`; on the impulse
buffer `[9, 5, 3, 5]` the offsets `-1` and `+1` attain the same maximum `5`,
and the source's `max_by` selects `+1`, not the lowest tied offset `-1` that
the claim prescribes. -/
theorem coarse_tie_counterexample :
    run_coarse_selection (1 / 2) 4 [9, 5, 3, 5] = some 1 ∧
    coarse_M (1 / 2) 4 = 1 ∧
    ([9, 5, 3, 5] : List ℚ).getD ((4 / 2 : ℕ) + (-1) : ℤ).toNat 0 =
      ([9, 5, 3, 5] : List ℚ).getD ((4 / 2 : ℕ) + 1 : ℤ).toNat 0 ∧
    ¬ ((1 : ℤ) = -1) := by
  have hM : coarse_M (1 / 2) 4 = 1 := by
    rw [coarse_M]
    norm_num
  have htie : ([9, 5, 3, 5] : List ℚ).getD ((4 / 2 : ℕ) + (-1) : ℤ).toNat 0 =
      ([9, 5, 3, 5] : List ℚ).getD ((4 / 2 : ℕ) + 1 : ℤ).toNat 0 := by
    have h1 : (((4 / 2 : ℕ) : ℤ) + (-1)).toNat = 1 := by decide
    have h2 : (((4 / 2 : ℕ) : ℤ) + 1).toNat = 3 := by decide
    rw [h1, h2]
    rfl
  refine ⟨?_, hM, htie, by norm_num⟩
  rw [run_coarse_selection, if_neg (by norm_num), hM]
  rw [coarse_selected_offset, coarse_search_pairs]
  have hrange : intRangeIncl (-1) 1 = [-1, 0, 1] := by
    rw [intRangeIncl, show ((1 : ℤ) + 1 - -1).toNat = 3 from by decide]
    norm_num [List.range_succ]
  rw [hrange]
  have hpairs0 : mapMO (fun offset =>
      let fft_bin := offset + ((4 / 2 : ℕ) : ℤ)
      if 0 ≤ fft_bin ∧ fft_bin.toNat < ([9, 5, 3, 5] : List ℚ).length then
        some (offset, ([9, 5, 3, 5] : List ℚ).getD fft_bin.toNat 0)
      else none) [-1, 0, 1] =
      some [(-1, 5), (0, 3), (1, 5)] := by rfl
  rw [hpairs0]
  simp only [Option.map_some']
  have hmax0 : maxByGt [((-1 : ℤ), (5 : ℚ)), (0, 3), (1, 5)] = some (1, 5) := by
    norm_num [maxByGt]
  rw [hmax0]
  rfl

/-- Claim C2 (amended): with coarse correction enabled the search over
`k ∈ [-M, +M]` (`M = floor(0.5 * coarse_frequency_max_range * N_fft)`)
selects an offset maximising `coarse_frequency_impulse[N_fft/2 + k]`, and
whenever two or more offsets attain the exact same maximum value the
HIGHEST such offset is selected (the source's `max_by` keeps the later
element on ties). -/
theorem coarse_selected_offset_spec (impulse : List ℚ) (nb_fft : ℕ) (r : ℚ)
    (hr0 : 0 ≤ r) (hr1 : r < 1) (hlen : impulse.length = nb_fft)
    (hn : 1 ≤ nb_fft) :
    ∃ kstar, run_coarse_selection r nb_fft impulse = some kstar ∧
      -(coarse_M r nb_fft) ≤ kstar ∧ kstar ≤ coarse_M r nb_fft ∧
      (∀ k, -(coarse_M r nb_fft) ≤ k → k ≤ coarse_M r nb_fft →
        impulse.getD (((nb_fft / 2 : ℕ) : ℤ) + k).toNat 0 ≤
          impulse.getD (((nb_fft / 2 : ℕ) : ℤ) + kstar).toNat 0) ∧
      (∀ k, -(coarse_M r nb_fft) ≤ k → k ≤ coarse_M r nb_fft →
        impulse.getD (((nb_fft / 2 : ℕ) : ℤ) + k).toNat 0 =
          impulse.getD (((nb_fft / 2 : ℕ) : ℤ) + kstar).toNat 0 →
        k ≤ kstar) := by
  set M := coarse_M r nb_fft with hMdef
  set dc : ℤ := ((nb_fft / 2 : ℕ) : ℤ) with hdcdef
  have hnQ : (0 : ℚ) < (nb_fft : ℚ) := by
    exact_mod_cast Nat.lt_of_lt_of_le Nat.zero_lt_one hn
  have hM0 : 0 ≤ M := by
    rw [hMdef, coarse_M]
    apply Int.floor_nonneg.mpr
    positivity
  have hM2 : 2 * M < (nb_fft : ℤ) := by
    have h1 : (M : ℚ) ≤ (1 / 2 : ℚ) * r * (nb_fft : ℚ) := by
      rw [hMdef, coarse_M]
      exact Int.floor_le _
    have h2 : (1 / 2 : ℚ) * r * (nb_fft : ℚ) < (1 / 2 : ℚ) * 1 * (nb_fft : ℚ) := by
      have := mul_lt_mul_of_pos_right
        (mul_lt_mul_of_pos_left hr1 (by norm_num : (0 : ℚ) < 1 / 2)) hnQ
      simpa using this
    have : (2 : ℚ) * (M : ℚ) < (nb_fft : ℚ) := by
      nlinarith
    exact_mod_cast this
  have hdc1 : M ≤ dc := by
    rw [hdcdef]
    have : (nb_fft / 2 : ℕ) = nb_fft / 2 := rfl
    omega
  have hdc2 : dc + M < (nb_fft : ℤ) := by
    rw [hdcdef]
    omega
  have hwin : ∀ k : ℤ, -M ≤ k → k ≤ M →
      0 ≤ dc + k ∧ (dc + k).toNat < impulse.length := by
    intro k hk1 hk2
    rw [hlen]
    omega
  have hpairs : mapMO (fun offset =>
      let fft_bin := offset + dc
      if 0 ≤ fft_bin ∧ fft_bin.toNat < impulse.length then
        some (offset, impulse.getD fft_bin.toNat 0)
      else none) (intRangeIncl (-M) M) =
      some ((intRangeIncl (-M) M).map
        (fun offset => (offset, impulse.getD (offset + dc).toNat 0))) := by
    apply mapMO_congr_some
    intro a ha
    rw [intRangeIncl] at ha
    rw [List.mem_map] at ha
    obtain ⟨k, hk, hak⟩ := ha
    rw [List.mem_range] at hk
    have ha1 : -M ≤ a := by omega
    have ha2 : a ≤ M := by omega
    obtain ⟨hb1, hb2⟩ := hwin a ha1 ha2
    simp only
    rw [if_pos ⟨by omega, by omega⟩]
  set pairs := (intRangeIncl (-M) M).map
    (fun offset => (offset, impulse.getD (offset + dc).toNat 0)) with hpairsdef
  have hplen : pairs.length = (2 * M + 1).toNat := by
    rw [hpairsdef, List.length_map, intRangeIncl_length]
    omega
  have hpget : ∀ j, j < (2 * M + 1).toNat →
      pairs.getD j (0, 0) = (-M + (j : ℤ),
        impulse.getD ((-M + (j : ℤ)) + dc).toNat 0) := by
    intro j hj
    rw [hpairsdef, intRangeIncl, List.map_map]
    have hj2 : j < (M + 1 - -M).toNat := by omega
    rw [getD_map_range _ _ _ hj2]
    rfl
  have hpne : pairs ≠ [] := by
    intro hcon
    have := congrArg List.length hcon
    rw [hplen] at this
    simp at this
    omega
  obtain ⟨i, hi, heq, hmax, hlast⟩ := maxByGt_spec pairs hpne (0, 0)
  rw [hplen] at hi
  have hki : pairs.getD i (0, 0) = (-M + (i : ℤ),
      impulse.getD ((-M + (i : ℤ)) + dc).toNat 0) := hpget i hi
  refine ⟨-M + (i : ℤ), ?_, by omega, by omega, ?_, ?_⟩
  · rw [run_coarse_selection, if_neg (not_not_intro hr1)]
    rw [coarse_selected_offset, coarse_search_pairs, ← hMdef, ← hdcdef, hpairs]
    simp only [Option.map_some']
    rw [heq]
    simp only [Option.map_some', Option.getD_some]
    rw [hki]
  · intro k hk1 hk2
    have hj : (k + M).toNat < (2 * M + 1).toNat := by omega
    have := hmax (k + M).toNat (by rw [hplen]; exact hj)
    rw [hpget _ hj, hki] at this
    simp only at this
    have hkeq : -M + ((k + M).toNat : ℤ) = k := by omega
    rw [hkeq] at this
    calc impulse.getD (dc + k).toNat 0 = impulse.getD (k + dc).toNat 0 := by
          rw [Int.add_comm]
      _ ≤ impulse.getD ((-M + (i : ℤ)) + dc).toNat 0 := this
      _ = impulse.getD (dc + (-M + (i : ℤ))).toNat 0 := by rw [Int.add_comm]
  · intro k hk1 hk2 hkv
    by_contra hcon
    push_neg at hcon
    have hj : (k + M).toNat < (2 * M + 1).toNat := by omega
    have hjgt : i < (k + M).toNat := by omega
    have := hlast (k + M).toNat hjgt (by rw [hplen]; exact hj)
    rw [hpget _ hj, hki] at this
    simp only at this
    have hkeq : -M + ((k + M).toNat : ℤ) = k := by omega
    rw [hkeq] at this
    rw [Int.add_comm dc k, Int.add_comm dc (-M + (i : ℤ))] at hkv
    rw [hkv] at this
    exact lt_irrefl _ this

theorem coarse_selected_offset_spec_witness :
    ((0 : ℚ) ≤ 0 ∧ (0 : ℚ) < 1 ∧ ([(2 : ℚ)]).length = 1 ∧ 1 ≤ 1) ∧
    (∃ kstar, run_coarse_selection 0 1 [(2 : ℚ)] = some kstar ∧
      -(coarse_M 0 1) ≤ kstar ∧ kstar ≤ coarse_M 0 1 ∧
      (∀ k, -(coarse_M 0 1) ≤ k → k ≤ coarse_M 0 1 →
        ([(2 : ℚ)]).getD (((1 / 2 : ℕ) : ℤ) + k).toNat 0 ≤
          ([(2 : ℚ)]).getD (((1 / 2 : ℕ) : ℤ) + kstar).toNat 0) ∧
      (∀ k, -(coarse_M 0 1) ≤ k → k ≤ coarse_M 0 1 →
        ([(2 : ℚ)]).getD (((1 / 2 : ℕ) : ℤ) + k).toNat 0 =
          ([(2 : ℚ)]).getD (((1 / 2 : ℕ) : ℤ) + kstar).toNat 0 →
        k ≤ kstar)) :=
  ⟨⟨le_refl 0, by norm_num, rfl, le_refl 1⟩,
    coarse_selected_offset_spec [(2 : ℚ)] 1 0 (le_refl 0) (by norm_num) rfl
      (le_refl 1)⟩

theorem consume_from_iterator_reset_iterList {α : Type} (b : LinearBucket α)
    (src : List α) :
    ((b.reset.consume_from_iterator src).1).iterList = src.take b.capacity := by
  simp only [LinearBucket.consume_from_iterator, LinearBucket.reset,
    LinearBucket.iterList, LinearBucket.capacity, setRange, Nat.sub_zero,
    Nat.zero_add, List.take_zero, List.nil_append, List.length_take]
  rw [List.take_append_of_le_length
    (by simp only [List.length_take]; omega)]
  rw [List.take_take, min_self]
  rcases le_or_lt src.length b.data.length with hle | hlt
  · rw [min_eq_left hle, List.take_of_length_le (le_refl _),
      List.take_of_length_le hle]
  · rw [min_eq_right (le_of_lt hlt)]

theorem iterList_eq_retained_of_full {α : Type} [Inhabited α]
    (b : CircularBucket α) (h : b.length = b.capacity) :
    b.iterList = b.retainedOldestFirst := by
  rw [CircularBucket.iterList, CircularBucket.retainedOldestFirst]
  apply List.map_congr_left
  intro k _
  congr 2
  omega

theorem nullScan_le (a b : ℚ) (bs : ℕ) (chunks : List (List Cplx))
    (s e : Bool) (t : ℕ) :
    (nullScan a b bs chunks s e t).1 ≤ t + bs * chunks.length := by
  induction chunks generalizing s e t with
  | nil => simp [nullScan]
  | cons c rest ih =>
    rw [nullScan]
    simp only [List.length_cons, Nat.mul_succ]
    by_cases hs : s
    · rw [if_pos hs]
      by_cases hgt : calculate_l1_average c > b
      · rw [if_pos hgt]
        simp only
        omega
      · rw [if_neg hgt]
        have := ih s e (t + bs)
        omega
    · rw [if_neg hs]
      by_cases hlt : calculate_l1_average c < a
      · rw [if_pos hlt]
        have := ih true e (t + bs)
        omega
      · rw [if_neg hlt]
        have := ih s e (t + bs)
        omega

theorem findNullScan_le (d : OfdmDemodulator) (buf : List Cplx) :
    (findNullScan d buf).1 ≤ buf.length := by
  rw [findNullScan]
  have h1 := nullScan_le (d.signal_l1_average * d.settings.null_power_threshold_start)
    (d.signal_l1_average * d.settings.null_power_threshold_end)
    d.settings.null_power_total_samples
    (chunksExact d.settings.null_power_total_samples buf)
    d.is_null_start_found d.is_null_end_found 0
  have h2 : d.settings.null_power_total_samples *
      (chunksExact d.settings.null_power_total_samples buf).length ≤ buf.length := by
    rw [chunksExact, List.length_map, List.length_range, Nat.mul_comm]
    exact Nat.div_mul_le_self buf.length _
  omega

/-- Claim C5 (amended): with `T` the total samples covered by the block scan:
if NULL-end was not found, all of `buf` is pushed into the `null_power_dip`
ring (overwriting old entries) and the handler consumes `|buf|`; if NULL-end
was found, `buf[0..T]` is pushed into the ring, `null_prs` is reset and then
receives the ring's `length` elements as the ring's iterator reads them —
starting at the WRITE index and wrapping, truncated to `null_prs`'s capacity —
which equals the retained contents oldest-first exactly when the ring is
full; both scan flags and the ring are cleared, the state becomes
ReadingNullAndPrs, and the handler returns `T`. -/
theorem find_null_power_dip_spec (d : OfdmDemodulator) (buf : List Cplx)
    (hbs : d.settings.null_power_total_samples ≠ 0)
    (hcap : 1 ≤ d.null_power_dip_buffer.capacity) :
    (findNullScan d buf).1 ≤ buf.length ∧
    ((findNullScan d buf).2.2 = false →
      ∃ ring2, d.null_power_dip_buffer.consume buf true = some (ring2, buf.length) ∧
        find_null_power_dip d buf = some (buf.length,
          { d with
            is_null_start_found := (findNullScan d buf).2.1,
            is_null_end_found := false,
            null_power_dip_buffer := ring2 })) ∧
    ((findNullScan d buf).2.2 = true →
      ∃ ring2 d2,
        d.null_power_dip_buffer.consume (buf.take (findNullScan d buf).1) true =
          some (ring2, (findNullScan d buf).1) ∧
        find_null_power_dip d buf = some ((findNullScan d buf).1, d2) ∧
        d2.null_prs_buffer.iterList =
          ring2.iterList.take d.null_prs_buffer.capacity ∧
        (ring2.length = ring2.capacity →
          ring2.iterList = ring2.retainedOldestFirst) ∧
        d2.is_null_start_found = false ∧
        d2.is_null_end_found = false ∧
        d2.null_power_dip_buffer = ring2.reset ∧
        d2.state = .ReadingNullAndPrs) := by
  have hT := findNullScan_le d buf
  have hcap0 : d.null_power_dip_buffer.capacity ≠ 0 := by omega
  refine ⟨hT, ?_, ?_⟩
  · intro he
    obtain ⟨rb, hrb⟩ : ∃ rb,
        d.null_power_dip_buffer.consume buf true = some rb := by
      rw [CircularBucket.consume, if_neg (by simp [hcap0])]
      exact ⟨_, rfl⟩
    have hrb2 : rb.2 = buf.length := by
      rw [CircularBucket.consume, if_neg (by simp [hcap0])] at hrb
      cases hrb
      rfl
    refine ⟨rb.1, by rw [hrb, ← hrb2], ?_⟩
    simp only [find_null_power_dip]
    rw [if_neg hbs]
    simp only [he]
    rw [if_pos trivial, hrb]
  · intro he
    have htake : (buf.take (findNullScan d buf).1).length =
        (findNullScan d buf).1 := by
      rw [List.length_take]
      omega
    obtain ⟨rb, hrb⟩ : ∃ rb, d.null_power_dip_buffer.consume
        (buf.take (findNullScan d buf).1) true = some rb := by
      rw [CircularBucket.consume, if_neg (by simp [hcap0])]
      exact ⟨_, rfl⟩
    have hrb2 : rb.2 = (findNullScan d buf).1 := by
      rw [CircularBucket.consume, if_neg (by simp [hcap0])] at hrb
      cases hrb
      exact htake
    refine ⟨rb.1,
      { d with
        null_power_dip_buffer := rb.1.reset,
        null_prs_buffer :=
          (d.null_prs_buffer.reset.consume_from_iterator rb.1.iterList).1,
        is_null_start_found := false,
        is_null_end_found := false,
        state := .ReadingNullAndPrs },
      by rw [hrb, ← hrb2], ?_,
      consume_from_iterator_reset_iterList d.null_prs_buffer rb.1.iterList,
      fun hfull => iterList_eq_retained_of_full rb.1 hfull,
      rfl, rfl, rfl, rfl⟩
    simp only [find_null_power_dip]
    rw [if_neg hbs]
    simp only [he]
    rw [if_neg (by simp), hrb]

theorem c5_scan_eq : findNullScan c5Demod c5Buf = (2, true, true) := by
  have hchunks : chunksExact 1 c5Buf = [[⟨0, 0⟩], [⟨2, 0⟩]] := by rfl
  rw [findNullScan]
  show nullScan (c5Demod.signal_l1_average * c5Demod.settings.null_power_threshold_start)
    (c5Demod.signal_l1_average * c5Demod.settings.null_power_threshold_end)
    c5Demod.settings.null_power_total_samples
    (chunksExact c5Demod.settings.null_power_total_samples c5Buf)
    c5Demod.is_null_start_found c5Demod.is_null_end_found 0 = (2, true, true)
  norm_num [c5Demod, c5Settings, c5Buf, chunksExact, nullScan,
    calculate_l1_average, Cplx.l1_norm, List.range_succ]

theorem c5_find_null_eq :
    find_null_power_dip c5Demod c5Buf = some (2, c5Out) := by
  simp only [find_null_power_dip]
  rw [if_neg (by decide), c5_scan_eq]
  rfl

/-- Claim C5 counterexample: on the concrete state `c5Demod` (fresh ring of
capacity 4, signal average 2, default thresholds, block size 1) and input
`[0, 2]`, the NULL end is found with `T = 2`; the two pushed samples occupy
ring slots 0 and 1, but the ring's iterator starts at the write index 2, so
`null_prs` receives `[0, 0]` (two stale slots) — not the ring's retained
contents oldest-first, which are `[0, 2]`. -/
theorem find_null_ring_iter_counterexample :
    (findNullScan c5Demod c5Buf).2.2 = true ∧
    find_null_power_dip c5Demod c5Buf = some (2, c5Out) ∧
    c5Out.null_prs_buffer.iterList = [⟨0, 0⟩, ⟨0, 0⟩] ∧
    ((c5Demod.null_power_dip_buffer.consume (c5Buf.take 2) true).getD
      (c5Demod.null_power_dip_buffer, 0)).1.retainedOldestFirst =
      [⟨0, 0⟩, ⟨2, 0⟩] ∧
    ¬ (([⟨0, 0⟩, ⟨0, 0⟩] : List Cplx) = [⟨0, 0⟩, ⟨2, 0⟩]) :=
  ⟨by rw [c5_scan_eq], c5_find_null_eq, by rfl, by rfl, by decide⟩

theorem find_null_power_dip_spec_witness :
    (c5Demod.settings.null_power_total_samples ≠ 0 ∧
      1 ≤ c5Demod.null_power_dip_buffer.capacity) ∧
    ((findNullScan c5Demod c5Buf).1 ≤ c5Buf.length ∧
    ((findNullScan c5Demod c5Buf).2.2 = false →
      ∃ ring2, c5Demod.null_power_dip_buffer.consume c5Buf true =
          some (ring2, c5Buf.length) ∧
        find_null_power_dip c5Demod c5Buf = some (c5Buf.length,
          { c5Demod with
            is_null_start_found := (findNullScan c5Demod c5Buf).2.1,
            is_null_end_found := false,
            null_power_dip_buffer := ring2 })) ∧
    ((findNullScan c5Demod c5Buf).2.2 = true →
      ∃ ring2 d2,
        c5Demod.null_power_dip_buffer.consume
            (c5Buf.take (findNullScan c5Demod c5Buf).1) true =
          some (ring2, (findNullScan c5Demod c5Buf).1) ∧
        find_null_power_dip c5Demod c5Buf =
          some ((findNullScan c5Demod c5Buf).1, d2) ∧
        d2.null_prs_buffer.iterList =
          ring2.iterList.take c5Demod.null_prs_buffer.capacity ∧
        (ring2.length = ring2.capacity →
          ring2.iterList = ring2.retainedOldestFirst) ∧
        d2.is_null_start_found = false ∧
        d2.is_null_end_found = false ∧
        d2.null_power_dip_buffer = ring2.reset ∧
        d2.state = .ReadingNullAndPrs)) :=
  ⟨⟨by decide, by decide⟩,
    find_null_power_dip_spec c5Demod c5Buf (by decide) (by decide)⟩

theorem getD_mem_of_lt {α : Type} (l : List α) (j : ℕ) (hj : j < l.length)
    (d : α) : l.getD j d ∈ l := by
  rw [List.getD_eq_getElem?_getD, List.getElem?_eq_getElem hj]
  exact List.getElem_mem hj

theorem softBitsLoop_spec (mapper : List ℕ) (nb_data : ℕ) (dq : List Cplx)
    (inds : List ℕ) (acc out : List ℤ)
    (h : softBitsLoop mapper nb_data dq inds acc = some out) :
    out.length = acc.length ∧
    ∀ j, j < acc.length →
      ((∃ i ∈ inds, i * (nb_data * 2) ≤ j ∧ j < i * (nb_data * 2) + nb_data * 2) →
        (-127 ≤ out.getD j 0 ∧ out.getD j 0 ≤ 127)) ∧
      ((∀ i ∈ inds, ¬ (i * (nb_data * 2) ≤ j ∧ j < i * (nb_data * 2) + nb_data * 2)) →
        out.getD j 0 = acc.getD j 0) := by
  induction inds generalizing acc with
  | nil =>
    rw [softBitsLoop] at h
    cases h
    refine ⟨rfl, fun j hj => ⟨?_, fun _ => rfl⟩⟩
    rintro ⟨i, hi, -⟩
    exact absurd hi (List.not_mem_nil i)
  | cons i rest ih =>
    rw [softBitsLoop] at h
    split at h
    · exact Option.noConfusion h
    next x hx =>
    split at h
    · exact Option.noConfusion h
    next ychunk hyc =>
    split at h
    · exact Option.noConfusion h
    next ynew hynew =>
    obtain ⟨hyclen, hycb⟩ := sliceSpan_some_length hyc
    have hynewlen : ynew.length = nb_data * 2 := by
      rw [calculate_soft_bits_some_length hynew, hyclen]
    have hynewb := calculate_soft_bits_some_bounds hynew
    have hacc1len : (setRange acc (i * (nb_data * 2)) ynew).length = acc.length := by
      rw [length_setRange]
      rw [hynewlen]
      omega
    obtain ⟨hlen, hprops⟩ := ih _ h
    rw [hacc1len] at hlen hprops
    refine ⟨hlen, fun j hj => ⟨?_, ?_⟩⟩
    · rintro ⟨i2, hi2, hcov⟩
      rcases List.mem_cons.mp hi2 with hi2 | hi2
      · subst hi2
        by_cases hrest : ∃ i3 ∈ rest,
            i3 * (nb_data * 2) ≤ j ∧ j < i3 * (nb_data * 2) + nb_data * 2
        · exact (hprops j hj).1 hrest
        · push_neg at hrest
          have hpres := (hprops j hj).2 (fun i3 hi3 => by
            intro hc
            exact absurd hc.2 (by
              have := hrest i3 hi3
              omega))
          rw [hpres]
          rw [getD_setRange_mid acc _ ynew j hcov.1 (by omega) (by omega)]
          have hjin : j - i2 * (nb_data * 2) < ynew.length := by omega
          have := hynewb (ynew.getD (j - i2 * (nb_data * 2)) 0)
            (getD_mem_of_lt ynew _ hjin 0)
          exact this
      · exact (hprops j hj).1 ⟨i2, hi2, hcov⟩
    · intro hnone
      have hi1 := hnone i (List.mem_cons_self i rest)
      have hpres := (hprops j hj).2 (fun i3 hi3 =>
        hnone i3 (List.mem_cons_of_mem i hi3))
      rw [hpres]
      rcases Nat.lt_or_ge j (i * (nb_data * 2)) with hlt | hge
      · exact getD_setRange_of_lt acc _ ynew j hlt (by omega) 0
      · have hge2 : i * (nb_data * 2) + nb_data * 2 ≤ j := by omega
        exact getD_setRange_of_ge acc _ ynew j (by rw [hynewlen]; omega)
          (by rw [hynewlen]; omega) 0

/-- Claim C3: whenever `process_symbols` completes (one successful frame),
each registered subscriber is invoked exactly once — the invocation trace
grows by `n_bits_out_callbacks` copies of the output buffer — with a slice of
exactly `N_out_bits = 2 * N_dqpsk * N_data` signed soft-bit values, every
value lying in `[-127, +127]`. -/
theorem process_symbols_output (o : Oracles) (d d2 : OfdmDemodulator)
    (hlen : d.data_out_bits_buffer.length =
      2 * d.params.nb_dqpsk_symbols * d.params.nb_fft_data_carriers)
    (h : process_symbols o d = some d2) :
    d2.bits_out_invocations = d.bits_out_invocations ++
      List.replicate d.n_bits_out_callbacks d2.data_out_bits_buffer ∧
    d2.data_out_bits_buffer.length =
      2 * d.params.nb_dqpsk_symbols * d.params.nb_fft_data_carriers ∧
    ∀ v ∈ d2.data_out_bits_buffer, -127 ≤ v ∧ v ≤ 127 := by
  simp only [process_symbols] at h
  split at h
  · exact Option.noConfusion h
  next null_symbol hns =>
  split at h
  · exact Option.noConfusion h
  next tpe htpe =>
  split at h
  · exact Option.noConfusion h
  next fftbuf hfft =>
  split at h
  · exact Option.noConfusion h
  next dqpskbuf hdq =>
  split at h
  · exact Option.noConfusion h
  next outbits houtbits =>
  cases h
  obtain ⟨holen, hoprops⟩ := softBitsLoop_spec _ _ _ _ _ _ houtbits
  refine ⟨rfl, by rw [holen, hlen], ?_⟩
  intro v hv
  simp only at hv ⊢
  set w := d.params.nb_fft_data_carriers * 2 with hw
  set n := d.params.nb_dqpsk_symbols with hn
  have hlen2 : d.data_out_bits_buffer.length = n * w := by
    rw [hlen, hw, hn]
    ring
  obtain ⟨j, hj, hjv⟩ := List.mem_iff_getElem.mp hv
  rw [holen] at hj
  have hgd : outbits.getD j 0 = v := by
    rw [List.getD_eq_getElem?_getD, List.getElem?_eq_getElem (by omega), hjv]
    rfl
  rcases Nat.eq_zero_or_pos w with hw0 | hwpos
  · rw [hlen2, hw0] at hj
    omega
  · have hi : j / w < n := (Nat.div_lt_iff_lt_mul hwpos).mpr (by omega)
    have hdm := Nat.div_add_mod j w
    have hml := Nat.mod_lt j hwpos
    have h1 : j / w * w ≤ j := by
      calc j / w * w = w * (j / w) := Nat.mul_comm _ _
        _ ≤ w * (j / w) + j % w := Nat.le_add_right _ _
        _ = j := hdm
    have h2 : j < j / w * w + w := by
      calc j = w * (j / w) + j % w := hdm.symm
        _ < w * (j / w) + w := Nat.add_lt_add_left hml _
        _ = j / w * w + w := by rw [Nat.mul_comm]
    have hcov := (hoprops j (by omega)).1
      ⟨j / w, List.mem_range.mpr hi, h1, h2⟩
    rw [hgd] at hcov
    exact hcov

theorem c3_process_symbols_eval :
    process_symbols idOracles c3Demod = some c3Out := by
  norm_num [process_symbols, c3Demod, c3Params, c3Out, c5Settings, idOracles,
    sliceSpan, setRange, LinearBucket.iterList, LinearBucket.reset,
    LinearBucket.consume, LinearBucket.capacity, apply_pll, List.enum,
    List.enumFrom, rustSignum, Cplx.mul, phaseErrorSum,
    calculate_cyclic_phase_error, Cplx.add, Cplx.conj, fftLoop, dqpskLoop,
    softBitsLoop, calculate_dqpsk, calculate_soft_bits, quantise_to_soft_bit,
    i8cast, ratTrunc, update_fine_frequency_offset, rustRem, List.range_succ,
    cnorm]

theorem process_symbols_output_witness :
    (c3Demod.data_out_bits_buffer.length =
      2 * c3Demod.params.nb_dqpsk_symbols * c3Demod.params.nb_fft_data_carriers) ∧
    (c3Out.bits_out_invocations = c3Demod.bits_out_invocations ++
      List.replicate c3Demod.n_bits_out_callbacks c3Out.data_out_bits_buffer ∧
    c3Out.data_out_bits_buffer.length =
      2 * c3Demod.params.nb_dqpsk_symbols * c3Demod.params.nb_fft_data_carriers ∧
    ∀ v ∈ c3Out.data_out_bits_buffer, -127 ≤ v ∧ v ≤ 127) :=
  ⟨by decide, process_symbols_output idOracles c3Demod c3Out (by decide)
    c3_process_symbols_eval⟩

theorem LinearBucket.consume_capacity {α : Type} (b : LinearBucket α)
    (buf : List α) (h : b.length ≤ b.capacity) :
    (b.consume buf).1.capacity = b.capacity := by
  have : (b.consume buf).1.capacity = (setRange b.data b.length
      (buf.take (min buf.length (b.capacity - b.length)))).length := rfl
  rw [this, length_setRange]
  · rfl
  · simp only [List.length_take]
    have hc : b.capacity = b.data.length := rfl
    omega

theorem LinearBucket.consume_length {α : Type} (b : LinearBucket α)
    (buf : List α) :
    (b.consume buf).1.length = b.length + min buf.length (b.capacity - b.length) :=
  rfl

theorem LinearBucket.consume_count {α : Type} (b : LinearBucket α)
    (buf : List α) :
    (b.consume buf).2 = min buf.length (b.capacity - b.length) :=
  rfl

theorem LinearBucket.cfi_capacity {α : Type} (b : LinearBucket α)
    (src : List α) (h : b.length ≤ b.capacity) :
    (b.consume_from_iterator src).1.capacity = b.capacity := by
  have : (b.consume_from_iterator src).1.capacity = (setRange b.data b.length
      (src.take (min src.length (b.capacity - b.length)))).length := rfl
  rw [this, length_setRange]
  · rfl
  · simp only [List.length_take]
    have hc : b.capacity = b.data.length := rfl
    omega

theorem LinearBucket.cfi_length {α : Type} (b : LinearBucket α) (src : List α) :
    (b.consume_from_iterator src).1.length =
      b.length + min src.length (b.capacity - b.length) :=
  rfl

theorem CircularBucket.foldl_push_capacity {α : Type} (l : List α)
    (b : CircularBucket α) :
    (l.foldl CircularBucket.push b).capacity = b.capacity := by
  induction l generalizing b with
  | nil => rfl
  | cons x l ih =>
    rw [List.foldl_cons, ih]
    show ((b.data.set b.index x).length) = b.data.length
    exact List.length_set b.data b.index x

theorem CircularBucket.consume_some_facts {α : Type} {b : CircularBucket α}
    {buf : List α} {rb : CircularBucket α × ℕ}
    (h : b.consume buf true = some rb) :
    rb.1.capacity = b.capacity ∧
    rb.1.length = min b.capacity (b.length + buf.length) := by
  simp only [CircularBucket.consume] at h
  split at h
  · split at h
    · exact Option.noConfusion h
    · cases h
      exact ⟨CircularBucket.foldl_push_capacity _ b, rfl⟩
  · rename_i hfalse
    exact absurd trivial hfalse

theorem CircularBucket.consume_isSome {α : Type} (b : CircularBucket α)
    (buf : List α) (ca : Bool) (h : 1 ≤ b.capacity) :
    ∃ rb, b.consume buf ca = some rb := by
  rw [CircularBucket.consume]
  rw [if_neg (by omega)]
  exact ⟨_, rfl⟩

theorem apply_pll_length (x : List Cplx) (f : ℚ) :
    (apply_pll x f).length = x.length := by
  simp [apply_pll]

theorem CircularBucket.iterList_length {α : Type} [Inhabited α]
    (b : CircularBucket α) : b.iterList.length = b.length := by
  simp [CircularBucket.iterList]

theorem CircularBucket.reset_capacity {α : Type} (b : CircularBucket α) :
    b.reset.capacity = b.capacity := rfl

theorem find_null_step (d : OfdmDemodulator) (buf : List Cplx)
    (hwf : DemodWF d) (hne : buf ≠ []) (r : ℕ × OfdmDemodulator)
    (h : find_null_power_dip d buf = some r) :
    DemodWF r.2 ∧ r.1 ≤ buf.length ∧
      (1 ≤ r.1 ∨ (r.1 = 0 ∧ r.2.state = .ReadingNullAndPrs ∧
        r.2.null_prs_buffer.is_full = false)) := by
  obtain ⟨w1, w2, w3, w4, w5, w6, w7, w8, w9, w10, w11⟩ := hwf
  simp only [find_null_power_dip] at h
  split at h
  · exact Option.noConfusion h
  split at h
  · split at h
    · exact Option.noConfusion h
    next rb hrb =>
      cases h
      obtain ⟨hc1, hc2⟩ := CircularBucket.consume_some_facts hrb
      refine ⟨⟨w1, w2, w3, w4, w5, hc1.trans w6, ?_, w8, w9, w10, w11⟩,
        le_refl _, Or.inl ?_⟩
      · rw [hc2, hc1]
        exact min_le_left _ _
      · exact List.length_pos.mpr hne
  · split at h
    · exact Option.noConfusion h
    next rb hrb =>
      cases h
      obtain ⟨hc1, hc2⟩ := CircularBucket.consume_some_facts hrb
      have hprscap : ((d.null_prs_buffer.reset.consume_from_iterator
          rb.1.iterList).1).capacity = d.null_prs_buffer.capacity :=
        LinearBucket.cfi_capacity _ _ (by
          show (0 : ℕ) ≤ _
          omega)
      have hprslen : ((d.null_prs_buffer.reset.consume_from_iterator
          rb.1.iterList).1).length =
          min rb.1.iterList.length d.null_prs_buffer.capacity := by
        rw [LinearBucket.cfi_length]
        show 0 + min rb.1.iterList.length (d.null_prs_buffer.capacity - 0) = _
        omega
      refine ⟨⟨w1, w2, w3, w4, w5, hc1.trans w6, by
          show (0 : ℕ) ≤ _
          omega,
        hprscap.trans w8, ?_, w10, w11⟩, findNullScan_le d buf, ?_⟩
      · rw [hprslen, hprscap]
        exact min_le_right _ _
      · rcases Nat.eq_zero_or_pos (findNullScan d buf).1 with h0 | h1
        · refine Or.inr ⟨h0, rfl, ?_⟩
          have hsrc : rb.1.iterList.length ≤ d.params.nb_null_period := by
            rw [CircularBucket.iterList_length, hc2, ← w6]
            exact min_le_left _ _
          rw [LinearBucket.is_full]
          simp only [beq_eq_false_iff_ne, ne_eq]
          rw [hprslen, hprscap, w8]
          have : min rb.1.iterList.length
              (d.params.nb_null_period + d.params.nb_symbol_period) ≤
              d.params.nb_null_period := le_trans (min_le_left _ _) hsrc
          omega
        · exact Or.inl h1

theorem read_null_prs_step (d : OfdmDemodulator) (buf : List Cplx)
    (hwf : DemodWF d) (hne : buf ≠ []) :
    DemodWF (read_null_prs d buf).2 ∧ (read_null_prs d buf).1 ≤ buf.length ∧
      (1 ≤ (read_null_prs d buf).1 ∨
        ((read_null_prs d buf).1 = 0 ∧ d.null_prs_buffer.is_full = true ∧
          (read_null_prs d buf).2.state =
            .RunningCoarseFrequencySynchronisation)) := by
  obtain ⟨w1, w2, w3, w4, w5, w6, w7, w8, w9, w10, w11⟩ := hwf
  have hcap := LinearBucket.consume_capacity d.null_prs_buffer buf w9
  have hlen := LinearBucket.consume_length d.null_prs_buffer buf
  have hcnt := LinearBucket.consume_count d.null_prs_buffer buf
  have hbuf : 1 ≤ buf.length := List.length_pos.mpr hne
  simp only [read_null_prs]
  split
  · refine ⟨⟨w1, w2, w3, w4, w5, w6, w7, hcap.trans w8, ?_, w10, w11⟩, ?_, ?_⟩
    · rw [hlen]
      rw [show ((d.null_prs_buffer.consume buf).1).capacity =
        d.null_prs_buffer.capacity from hcap]
      omega
    · rw [hcnt]
      exact min_le_left _ _
    · rcases Nat.eq_zero_or_pos (d.null_prs_buffer.consume buf).2 with h0 | h1
      · refine Or.inr ⟨h0, ?_, rfl⟩
        rw [hcnt] at h0
        rw [LinearBucket.is_full, beq_iff_eq]
        omega
      · exact Or.inl h1
  · refine ⟨⟨w1, w2, w3, w4, w5, w6, w7, hcap.trans w8, ?_, w10, w11⟩, ?_, ?_⟩
    · rw [hlen]
      rw [show ((d.null_prs_buffer.consume buf).1).capacity =
        d.null_prs_buffer.capacity from hcap]
      omega
    · rw [hcnt]
      exact min_le_left _ _
    · rename_i hnotfull
      refine Or.inl ?_
      rw [hcnt]
      by_contra hcon
      push_neg at hcon
      have h0 : min buf.length (d.null_prs_buffer.capacity -
          d.null_prs_buffer.length) = 0 := by omega
      have hfl : (d.null_prs_buffer.consume buf).1.is_full = true := by
        rw [LinearBucket.is_full, beq_iff_eq, hlen, hcap]
        omega
      exact hnotfull hfl

theorem read_symbols_step (d : OfdmDemodulator) (buf : List Cplx)
    (hwf : DemodWF d) (hne : buf ≠ []) :
    DemodWF (read_symbols d buf).2 ∧ (read_symbols d buf).1 ≤ buf.length ∧
      (1 ≤ (read_symbols d buf).1 ∨
        ((read_symbols d buf).1 = 0 ∧ d.data_time_buffer.is_full = true ∧
          (read_symbols d buf).2.state = .ProcessingSymbols)) := by
  obtain ⟨w1, w2, w3, w4, w5, w6, w7, w8, w9, w10, w11⟩ := hwf
  have hcap := LinearBucket.consume_capacity d.data_time_buffer buf w11
  have hlen := LinearBucket.consume_length d.data_time_buffer buf
  have hcnt := LinearBucket.consume_count d.data_time_buffer buf
  have hbuf : 1 ≤ buf.length := List.length_pos.mpr hne
  simp only [read_symbols]
  split
  · refine ⟨⟨w1, w2, w3, w4, w5, w6, w7, w8, w9, hcap.trans w10, ?_⟩, ?_, ?_⟩
    · rw [hlen]
      rw [show ((d.data_time_buffer.consume buf).1).capacity =
        d.data_time_buffer.capacity from hcap]
      omega
    · rw [hcnt]
      exact min_le_left _ _
    · rcases Nat.eq_zero_or_pos (d.data_time_buffer.consume buf).2 with h0 | h1
      · refine Or.inr ⟨h0, ?_, rfl⟩
        rw [hcnt] at h0
        rw [LinearBucket.is_full, beq_iff_eq]
        omega
      · exact Or.inl h1
  · refine ⟨⟨w1, w2, w3, w4, w5, w6, w7, w8, w9, hcap.trans w10, ?_⟩, ?_, ?_⟩
    · rw [hlen]
      rw [show ((d.data_time_buffer.consume buf).1).capacity =
        d.data_time_buffer.capacity from hcap]
      omega
    · rw [hcnt]
      exact min_le_left _ _
    · rename_i hnotfull
      refine Or.inl ?_
      rw [hcnt]
      by_contra hcon
      push_neg at hcon
      have h0 : min buf.length (d.data_time_buffer.capacity -
          d.data_time_buffer.length) = 0 := by omega
      have hfl : (d.data_time_buffer.consume buf).1.is_full = true := by
        rw [LinearBucket.is_full, beq_iff_eq, hlen, hcap]
        omega
      exact hnotfull hfl

theorem coarse_step (o : Oracles) (d : OfdmDemodulator) (hwf : DemodWF d)
    (d2 : OfdmDemodulator)
    (h : run_coarse_frequency_synchronisation o d = some d2) :
    DemodWF d2 ∧ d2.state = .RunningFineTimeSync := by
  obtain ⟨w1, w2, w3, w4, w5, w6, w7, w8, w9, w10, w11⟩ := hwf
  simp only [run_coarse_frequency_synchronisation] at h
  split at h
  · cases h
    exact ⟨⟨w1, w2, w3, w4, w5, w6, w7, w8, w9, w10, w11⟩, rfl⟩
  · split at h
    · exact Option.noConfusion h
    next prs hprs =>
    split at h
    · split at h
      · split at h
        · exact Option.noConfusion h
        next t3 ht3 =>
        split at h
        · exact Option.noConfusion h
        next impulse himp =>
        split at h
        · exact Option.noConfusion h
        next k hk =>
        cases h
        exact ⟨⟨w1, w2, w3, w4, w5, w6, w7, w8, w9, w10, w11⟩, rfl⟩
      · exact Option.noConfusion h
    · exact Option.noConfusion h

theorem fine_step (o : Oracles) (d : OfdmDemodulator) (hwf : DemodWF d)
    (d2 : OfdmDemodulator) (h : run_fine_time_sync o d = some d2) :
    DemodWF d2 ∧ (d2.state = .FindingNullPowerDip ∨
      (d2.state = .ReadingSymbols ∧ d2.data_time_buffer.is_full = false)) := by
  obtain ⟨w1, w2, w3, w4, w5, w6, w7, w8, w9, w10, w11⟩ := hwf
  simp only [run_fine_time_sync] at h
  split at h
  · exact Option.noConfusion h
  next prs_data hprs =>
  split at h
  · split at h
    · exact Option.noConfusion h
    next pk hpk =>
    split at h
    · cases h
      refine ⟨⟨w1, w2, w3, w4, w5, w6, w7, w8, Nat.zero_le _, w10, w11⟩,
        Or.inl rfl⟩
    · split at h
      · exact Option.noConfusion h
      next prs_part hpart =>
      cases h
      obtain ⟨hpartlen, hpartb⟩ := sliceSpan_some_length hpart
      have hdtcap := LinearBucket.consume_capacity d.data_time_buffer.reset
        prs_part (Nat.zero_le _)
      have hdtlen := LinearBucket.consume_length d.data_time_buffer.reset prs_part
      have hrescap : (d.data_time_buffer.reset.consume prs_part).1.capacity =
          d.data_time_buffer.capacity := hdtcap
      have hmul : 2 * d.params.nb_symbol_period ≤
          d.params.nb_symbol_period * d.params.nb_symbols := by
        calc 2 * d.params.nb_symbol_period
            = d.params.nb_symbol_period * 2 := Nat.mul_comm _ _
          _ ≤ d.params.nb_symbol_period * d.params.nb_symbols :=
            Nat.mul_le_mul_left _ w3
      have hplt : prs_part.length < d.data_time_buffer.capacity := by
        rw [hpartlen, w10, w5]
        omega
      refine ⟨⟨w1, w2, w3, w4, w5, w6, w7, w8, Nat.zero_le _, hrescap.trans w10,
        ?_⟩, Or.inr ⟨rfl, ?_⟩⟩
      · rw [hdtlen, hrescap]
        show 0 + min prs_part.length (d.data_time_buffer.capacity - 0) ≤ _
        omega
      · rw [LinearBucket.is_full, beq_eq_false_iff_ne, ne_eq]
        rw [hdtlen, hrescap]
        show ¬ (0 + min prs_part.length (d.data_time_buffer.capacity - 0) =
          d.data_time_buffer.capacity)
        omega
  · exact Option.noConfusion h

theorem process_symbols_step (o : Oracles) (d : OfdmDemodulator)
    (hwf : DemodWF d) (d2 : OfdmDemodulator) (h : process_symbols o d = some d2) :
    DemodWF d2 ∧ d2.state = .ReadingNullAndPrs ∧
      d2.null_prs_buffer.is_full = false := by
  obtain ⟨w1, w2, w3, w4, w5, w6, w7, w8, w9, w10, w11⟩ := hwf
  simp only [process_symbols] at h
  split at h
  · exact Option.noConfusion h
  next null_symbol hns =>
  split at h
  · exact Option.noConfusion h
  next tpe htpe =>
  split at h
  · exact Option.noConfusion h
  next fftbuf hfft =>
  split at h
  · exact Option.noConfusion h
  next dqpskbuf hdq =>
  split at h
  · exact Option.noConfusion h
  next outbits houtbits =>
  cases h
  obtain ⟨hnslen, hnsb⟩ := sliceSpan_some_length hns
  have hprscap := LinearBucket.consume_capacity d.null_prs_buffer.reset
    null_symbol (Nat.zero_le _)
  have hprslen := LinearBucket.consume_length d.null_prs_buffer.reset null_symbol
  have hrl : d.null_prs_buffer.reset.length = 0 := rfl
  have hrc : d.null_prs_buffer.reset.capacity = d.null_prs_buffer.capacity := rfl
  rw [hrl, hrc] at hprslen
  rw [hrc] at hprscap
  have hdtdata : (apply_pll d.data_time_buffer.iterList
      (d.fine_frequency_offset + d.coarse_frequency_offset)
      ++ d.data_time_buffer.data.drop d.data_time_buffer.length).length =
      d.data_time_buffer.data.length := by
    rw [List.length_append, apply_pll_length, LinearBucket.iterList,
      List.length_take, List.length_drop]
    have : d.data_time_buffer.length ≤ d.data_time_buffer.data.length := w11
    omega
  refine ⟨⟨w1, w2, w3, w4, w5, w6, w7, hprscap.trans w8, ?_, ?_, ?_⟩, rfl, ?_⟩
  · rw [hprslen, hprscap]
    show 0 + min null_symbol.length (d.null_prs_buffer.capacity - 0) ≤ _
    omega
  · show (apply_pll d.data_time_buffer.iterList
      (d.fine_frequency_offset + d.coarse_frequency_offset)
      ++ d.data_time_buffer.data.drop d.data_time_buffer.length).length =
      d.params.nb_input_samples
    rw [hdtdata]
    exact w10
  · show d.data_time_buffer.length ≤ _
    rw [show ((⟨(apply_pll d.data_time_buffer.iterList
      (d.fine_frequency_offset + d.coarse_frequency_offset)
      ++ d.data_time_buffer.data.drop d.data_time_buffer.length),
      d.data_time_buffer.length⟩ : LinearBucket Cplx)).capacity =
      d.data_time_buffer.data.length from hdtdata]
    exact w11
  · rw [LinearBucket.is_full, beq_eq_false_iff_ne, ne_eq, hprslen, hprscap, w8]
    rw [hnslen]
    show ¬ (0 + min d.params.nb_null_period
      (d.params.nb_null_period + d.params.nb_symbol_period - 0) =
      d.params.nb_null_period + d.params.nb_symbol_period)
    omega

theorem demodRank_le (d : OfdmDemodulator) : demodRank d ≤ 6 := by
  simp only [demodRank]
  split <;> (try split) <;> omega

theorem update_signal_power_average_wf (d : OfdmDemodulator) (buf : List Cplx)
    (d1 : OfdmDemodulator) (h : update_signal_power_average d buf = some d1) :
    (DemodWF d → DemodWF d1) ∧ demodRank d1 = demodRank d := by
  simp only [update_signal_power_average] at h
  split at h
  · exact Option.noConfusion h
  · split at h
    · exact Option.noConfusion h
    · split at h
      · cases h
        exact ⟨fun hwf => hwf, rfl⟩
      · cases h
        exact ⟨fun hwf => hwf, rfl⟩

theorem dispatch_step (o : Oracles) (d : OfdmDemodulator) (buf : List Cplx)
    (hwf : DemodWF d) (hne : buf ≠ []) (r : ℕ × OfdmDemodulator)
    (h : dispatch o d buf = some r) :
    DemodWF r.2 ∧ r.1 ≤ buf.length ∧
      (1 ≤ r.1 ∨ (r.1 = 0 ∧ demodRank r.2 < demodRank d)) := by
  cases hst : d.state
  case FindingNullPowerDip =>
    simp only [dispatch, hst] at h
    obtain ⟨hwf2, hle, hor⟩ := find_null_step d buf ⟨hwf.1, hwf.2.1, hwf.2.2.1,
      hwf.2.2.2.1, hwf.2.2.2.2.1, hwf.2.2.2.2.2.1, hwf.2.2.2.2.2.2.1,
      hwf.2.2.2.2.2.2.2.1, hwf.2.2.2.2.2.2.2.2.1, hwf.2.2.2.2.2.2.2.2.2.1,
      hwf.2.2.2.2.2.2.2.2.2.2⟩ hne r h
    refine ⟨hwf2, hle, ?_⟩
    rcases hor with h1 | ⟨h0, hstate, hfull⟩
    · exact Or.inl h1
    · refine Or.inr ⟨h0, ?_⟩
      simp only [demodRank, hstate, hfull, hst]
      norm_num
  case ReadingNullAndPrs =>
    simp only [dispatch, hst] at h
    have hr := Option.some.inj h
    subst hr
    obtain ⟨hwf2, hle, hor⟩ := read_null_prs_step d buf hwf hne
    refine ⟨hwf2, hle, ?_⟩
    rcases hor with h1 | ⟨h0, hfull, hstate⟩
    · exact Or.inl h1
    · refine Or.inr ⟨h0, ?_⟩
      simp only [demodRank, hstate, hfull, hst]
      norm_num
  case RunningCoarseFrequencySynchronisation =>
    simp only [dispatch, hst] at h
    cases hc : run_coarse_frequency_synchronisation o d with
    | none => rw [hc] at h; exact Option.noConfusion h
    | some d2 =>
      rw [hc, Option.map_some'] at h
      have hr := Option.some.inj h
      subst hr
      obtain ⟨hwf2, hstate⟩ := coarse_step o d hwf d2 hc
      refine ⟨hwf2, Nat.zero_le _, Or.inr ⟨rfl, ?_⟩⟩
      simp only [demodRank, hstate, hst]
      omega
  case RunningFineTimeSync =>
    simp only [dispatch, hst] at h
    cases hc : run_fine_time_sync o d with
    | none => rw [hc] at h; exact Option.noConfusion h
    | some d2 =>
      rw [hc, Option.map_some'] at h
      have hr := Option.some.inj h
      subst hr
      obtain ⟨hwf2, hor⟩ := fine_step o d hwf d2 hc
      refine ⟨hwf2, Nat.zero_le _, Or.inr ⟨rfl, ?_⟩⟩
      rcases hor with hstate | ⟨hstate, hfull⟩
      · simp only [demodRank, hstate, hst]
        omega
      · simp only [demodRank, hstate, hst, hfull]
        norm_num
  case ReadingSymbols =>
    simp only [dispatch, hst] at h
    have hr := Option.some.inj h
    subst hr
    obtain ⟨hwf2, hle, hor⟩ := read_symbols_step d buf hwf hne
    refine ⟨hwf2, hle, ?_⟩
    rcases hor with h1 | ⟨h0, hfull, hstate⟩
    · exact Or.inl h1
    · refine Or.inr ⟨h0, ?_⟩
      simp only [demodRank, hstate, hfull, hst]
      norm_num
  case ProcessingSymbols =>
    simp only [dispatch, hst] at h
    cases hc : process_symbols o d with
    | none => rw [hc] at h; exact Option.noConfusion h
    | some d2 =>
      rw [hc, Option.map_some'] at h
      have hr := Option.some.inj h
      subst hr
      obtain ⟨hwf2, hstate, hfull⟩ := process_symbols_step o d hwf d2 hc
      refine ⟨hwf2, Nat.zero_le _, Or.inr ⟨rfl, ?_⟩⟩
      simp only [demodRank, hstate, hst, hfull]
      norm_num

theorem processLoop_no_fuelOut (o : Oracles) :
    ∀ (fuel : ℕ) (d : OfdmDemodulator) (buf : List Cplx), DemodWF d →
      7 * buf.length + demodRank d < fuel →
      processLoop o fuel d buf ≠ .fuelOut := by
  intro fuel
  induction fuel with
  | zero =>
    intro d buf _ hlt
    omega
  | succ n ih =>
    intro d buf hwf hlt
    simp only [processLoop]
    split
    · exact fun hc => ProcessResult.noConfusion hc
    next hemp =>
    have hne : buf ≠ [] := fun hnil => hemp (by simp [hnil])
    cases hd : dispatch o d buf with
    | none => exact fun hc => ProcessResult.noConfusion hc
    | some r =>
      obtain ⟨hwf2, hle, hor⟩ := dispatch_step o d buf hwf hne r hd
      dsimp only
      rw [if_pos hle]
      apply ih r.2 (buf.drop r.1) hwf2
      rw [List.length_drop]
      have hrank2 : demodRank r.2 ≤ 6 := demodRank_le r.2
      have hbuf : 1 ≤ buf.length := List.length_pos.mpr hne
      rcases hor with h1 | ⟨h0, hdec⟩
      · omega
      · omega

/-- C9: for every finite input slice `buf`, `process` terminates. With fuel
`7 * |buf| + 7` the dispatch loop never runs out of fuel: every iteration
either consumes at least one sample of the remaining buffer or, consuming
zero, strictly decreases the state rank `demodRank`, which is bounded by 6. -/
theorem process_terminates (o : Oracles) (d : OfdmDemodulator)
    (buf : List Cplx) (hwf : DemodWF d) :
    process o d buf ≠ ProcessResult.fuelOut := by
  simp only [process]
  cases hu : update_signal_power_average d buf with
  | none => exact fun hc => ProcessResult.noConfusion hc
  | some d1 =>
    obtain ⟨hwfi, hrank⟩ := update_signal_power_average_wf d buf d1 hu
    apply processLoop_no_fuelOut o (7 * buf.length + 7) d1 buf (hwfi hwf)
    have h6 : demodRank d1 ≤ 6 := demodRank_le d1
    omega

theorem process_terminates_witness :
    DemodWF c9Demod ∧
      process idOracles c9Demod [⟨0, 0⟩, ⟨1, 0⟩] ≠ ProcessResult.fuelOut := by
  have hwf : DemodWF c9Demod := by
    refine ⟨?_, ?_, ?_, ?_, ?_, ?_, ?_, ?_, ?_, ?_, ?_⟩ <;>
      simp only [c9Demod, c9Params, CircularBucket.capacity,
        LinearBucket.capacity] <;> decide
  exact ⟨hwf, process_terminates idOracles c9Demod [⟨0, 0⟩, ⟨1, 0⟩] hwf⟩
